import Mathlib

set_option maxHeartbeats 1000000

/-!
Shallow embedding of the StackTrie implementation (src/trie/stacktrie.go).

Bytes and nibbles are modelled as `Nat`; Go slices as `List Nat`; the sixteen
child pointers as a `List (Option StNode)` of length 16; Go `panic`s as
`Except StErr` errors; the side-effecting writer / cleaner / boundary-gauge
callbacks as an explicit `List Emission` log returned by each operation.
The Keccak-256 primitive is an external collaborator and is threaded as an
abstract parameter `H`.
-/

namespace StackTrieModel

/-- Modelled from the spec: minimal big-endian byte representation of a length,
as used by the external length-prefixed (RLP) codec for long payloads. -/
def beBytes : Nat → List Nat
  | 0 => []
  | n+1 => beBytes ((n+1) / 256) ++ [(n+1) % 256]
decreasing_by exact Nat.div_lt_self (Nat.succ_pos n) (by omega)

/-- Modelled from the spec: the external length-prefixed codec's encoding of a
byte string (canonical Ethereum RLP string encoding). -/
def rlpString (b : List Nat) : List Nat :=
  if b.length = 1 ∧ b.headD 0 < 128 then b
  else if b.length < 56 then (128 + b.length) :: b
  else (183 + (beBytes b.length).length) :: (beBytes b.length ++ b)

/-- Modelled from the spec: the external codec's list framing given an
already-encoded payload (canonical Ethereum RLP list encoding). -/
def rlpListPayload (p : List Nat) : List Nat :=
  if p.length < 56 then (192 + p.length) :: p
  else (247 + (beBytes p.length).length) :: (beBytes p.length ++ p)

theorem beBytes_small : ∀ n : Nat, 0 < n → n < 256 → beBytes n = [n] := by
  intro n h1 h2
  match n with
  | 0 => omega
  | m + 1 =>
    rw [beBytes]
    rw [Nat.div_eq_of_lt h2]
    rw [Nat.mod_eq_of_lt h2]
    rw [beBytes]
    rfl

/-- A child reference inside a node encoding: absent child, raw inline
encoding (`rawNode`), 32-byte digest (`hashNode`), or a leaf value
(`valueNode`). -/
inductive NodeRef where
  | nilRef : NodeRef
  | rawRef (b : List Nat) : NodeRef
  | hashRef (b : List Nat) : NodeRef
  | valueRef (b : List Nat) : NodeRef
deriving DecidableEq

/-- Modelled from the spec: how each child reference is serialized inside the
parent's encoding. An absent child is the empty-string marker; a raw inline
child is spliced verbatim; digests and values are byte strings. -/
def NodeRef.encode : NodeRef → List Nat
  | .nilRef => [128]
  | .rawRef b => b
  | .hashRef b => rlpString b
  | .valueRef b => rlpString b

/-- Modelled from the spec: encoding of a full (branch) node: a 17-list whose
entries 0..15 are the child references and entry 16 is an empty string. -/
def fullNodeEncode (refs : List NodeRef) : List Nat :=
  rlpListPayload ((refs.map NodeRef.encode).flatten ++ [128])

/-- Modelled from the spec: encoding of a short node (leaf or extension): a
2-list of the compact path bytes and the child reference. -/
def shortNodeEncode (key : List Nat) (v : NodeRef) : List Nat :=
  rlpListPayload (rlpString key ++ v.encode)

/-- Modelled from the spec: `keybytesToHex` — two high/low nibbles per key
byte, high first, with the terminator nibble 16 appended. -/
def keybytesToHex (key : List Nat) : List Nat :=
  (key.map (fun b => [b / 16, b % 16])).flatten ++ [16]

/-- Pack a nibble sequence of even length pairwise, high nibble first. -/
def packNibbles : List Nat → List Nat
  | a :: b :: rest => (16 * a + b) :: packNibbles rest
  | _ => []

/-- Modelled from the spec: `hexToCompactInPlace` — hex-prefix compact
encoding of a nibble path. The prefix byte is
`(leaf_flag<<5) | (odd_flag<<4) | (odd_flag ? first_nibble : 0)`; the
remaining nibbles pack pairwise, high first. The leaf flag is taken from the
terminator nibble 16, which is dropped from the packed nibbles. -/
def hexToCompact (hex : List Nat) : List Nat :=
  let isLeaf := hex.getLast? = some 16
  let h := if isLeaf then hex.dropLast else hex
  let leafFlag := if isLeaf then 32 else 0
  if h.length % 2 = 1 then (leafFlag + 16 + h.headD 0) :: packNibbles h.tail
  else leafFlag :: packNibbles h

/-- Modelled from the spec: the canonical empty-trie root constant
`Keccak256(rlp(""))` =
`56e81f171bcc55a6ff8345e692c0f86e5b48e01b996cadc001622fb5e363b421`. -/
def emptyRoot : List Nat :=
  [0x56, 0xe8, 0x1f, 0x17, 0x1b, 0xcc, 0x55, 0xa6,
   0xff, 0x83, 0x45, 0xe6, 0x92, 0xc0, 0xf8, 0x6e,
   0x5b, 0x48, 0xe0, 0x1b, 0x99, 0x6c, 0xad, 0xc0,
   0x01, 0x62, 0x2f, 0xb5, 0xe3, 0x63, 0xb4, 0x21]

/-- `common.BytesToHash`: left-pad to 32 bytes, cropping leading bytes when
longer than 32. -/
def bytesToHash (b : List Nat) : List Nat :=
  let b' := if 32 < b.length then b.drop (b.length - 32) else b
  List.replicate (32 - b'.length) 0 ++ b'

/-- The node type discriminator (`emptyNode` .. `hashedNode`). -/
inductive NodeTyp where
  | emptyNode : NodeTyp
  | branchNode : NodeTyp
  | extNode : NodeTyp
  | leafNode : NodeTyp
  | hashedNode : NodeTyp
deriving DecidableEq

/-- `stNode`: node type, key chunk, value, and the sixteen child slots. -/
inductive StNode : Type where
  | mk (typ : NodeTyp) (key : List Nat) (val : List Nat)
      (children : List (Option StNode)) : StNode

def StNode.typ : StNode → NodeTyp
  | .mk t _ _ _ => t

def StNode.key : StNode → List Nat
  | .mk _ k _ _ => k

def StNode.val : StNode → List Nat
  | .mk _ _ v _ => v

def StNode.children : StNode → List (Option StNode)
  | .mk _ _ _ c => c

/-- Sixteen empty child slots. -/
def nil16 : List (Option StNode) := List.replicate 16 none

/-- A freshly cleared node as handed out by the pool. -/
def emptyStNode : StNode := .mk .emptyNode [] [] nil16

/-- `newLeaf`: a leaf node with the given key chunk and value. -/
def newLeaf (key v : List Nat) : StNode := .mk .leafNode key v nil16

/-- `newExt`: an extension node with the given key chunk and child slot 0. -/
def newExt (key : List Nat) (child : Option StNode) : StNode :=
  .mk .extNode key [] (nil16.set 0 child)

/-- The observable side effects: a writer call, a cleaner call, or a
boundary-gauge increment. -/
inductive Emission where
  | write (path h blob : List Nat) : Emission
  | clean (path : List Nat) : Emission
  | gaugeInc : Emission
deriving DecidableEq

/-- `StackTrieOptions`, with the function-valued fields abstracted to their
presence (the calls themselves are recorded in the emission log). -/
structure StackTrieOptions where
  hasWriter : Bool
  hasCleaner : Bool
  skipLeftBoundary : Bool
  skipRightBoundary : Bool
  hasGauge : Bool
deriving DecidableEq

/-- The Go panics that can abort an operation. The first three are the
explicit panics of stacktrie.go; the last two model Go runtime panics
(slice index out of range, nil pointer dereference). -/
inductive StErr where
  | deletionNotSupported : StErr
  | duplicateKey : StErr
  | insertIntoHash : StErr
  | indexOutOfRange : StErr
  | nilDereference : StErr
deriving DecidableEq

/-- A Go nil byte slice behaves as the empty slice under `bytes.HasPrefix`. -/
def optBytes : Option (List Nat) → List Nat
  | none => []
  | some l => l

/-- `getDiffIndex`: the first index at which the node key chunk differs from
the search key; the node key's length on a full match. Reading past the end
of the search key is a Go runtime panic. -/
def getDiffIndex : List Nat → List Nat → Except StErr Nat
  | [], _ => .ok 0
  | _ :: _, [] => .error .indexOutOfRange
  | n :: ns, k :: ks =>
      if n = k then (getDiffIndex ns ks).map (· + 1) else .ok 0

/-- Lines 419-456 of stacktrie.go: given the encoded `blob` of a node at
absolute path `path` (and the dangling `internal` paths collected for an
extension node), decide between inlining and hashing, apply the boundary
skipping rules, and produce the node's new value together with the emissions
(cleaner calls and the writer call) made for this node. -/
def hashFinal (H : List Nat → List Nat) (o : StackTrieOptions)
    (first last : Option (List Nat)) (path blob : List Nat)
    (internal : List (List Nat)) : List Nat × List Emission :=
  if blob.length < 32 ∧ path ≠ [] then (blob, [])
  else
    let v := H blob
    if o.hasWriter = false then (v, [])
    else if o.skipLeftBoundary ∧ path.isPrefixOf (optBytes first) then
      (v, if o.hasGauge then [.gaugeInc] else [])
    else if o.skipRightBoundary ∧ path.isPrefixOf (optBytes last) then
      (v, if o.hasGauge then [.gaugeInc] else [])
    else
      (v, internal.map .clean ++ [.write path (bytesToHash v) blob])

theorem sizeOf_lt_of_getD {cs : List (Option StNode)} {idx : Nat} {c : StNode}
    (h : cs.getD idx none = some c) : sizeOf c < sizeOf cs := by
  induction cs generalizing idx with
  | nil => simp [List.getD] at h
  | cons hd tl ih =>
    cases idx with
    | zero =>
      simp [List.getD] at h
      subst h
      simp
      omega
    | succ n =>
      have := ih (show tl.getD n none = some c by simpa [List.getD] using h)
      simp
      omega

mutual

/-- Lines 341-457 of stacktrie.go: `StackTrie.hash`. Hashes the node at
absolute path `path` into a `hashedNode`, returning the emission log and the
new node (or the Go panic). `first` and `last` are the boundary keys held by
the enclosing StackTrie. -/
def hashNode (H : List Nat → List Nat) (o : StackTrieOptions)
    (first last : Option (List Nat)) (st : StNode) (path : List Nat) :
    List Emission × Except StErr StNode :=
  match st with
  | .mk typ key val children =>
    match typ with
    | .hashedNode => ([], .ok (.mk .hashedNode key val children))
    | .emptyNode => ([], .ok (.mk .hashedNode [] emptyRoot children))
    | .branchNode =>
      match hashChildren H o first last children path 0 with
      | (em, .error e) => (em, .error e)
      | (em, .ok refs) =>
        (em ++ (hashFinal H o first last path (fullNodeEncode refs) []).2,
         .ok (.mk .hashedNode []
           (hashFinal H o first last path (fullNodeEncode refs) []).1
           (children.map (fun _ => none))))
    | .extNode =>
      match children with
      | [] => ([], .error .nilDereference)
      | none :: _ => ([], .error .nilDereference)
      | some c :: restCs =>
        match hashNode H o first last c (path ++ key) with
        | (em, .error e) => (em, .error e)
        | (em, .ok c') =>
          (em ++ (hashFinal H o first last path
              (shortNodeEncode (hexToCompact key)
                (if c'.val.length < 32 then .rawRef c'.val else .hashRef c'.val))
              (if 32 ≤ c'.val.length ∧ o.hasCleaner then
                (List.range' 1 (key.length - 1)).map (fun i => path ++ key.take i)
              else [])).2,
           .ok (.mk .hashedNode []
             (hashFinal H o first last path
               (shortNodeEncode (hexToCompact key)
                 (if c'.val.length < 32 then .rawRef c'.val else .hashRef c'.val))
               (if 32 ≤ c'.val.length ∧ o.hasCleaner then
                 (List.range' 1 (key.length - 1)).map (fun i => path ++ key.take i)
               else [])).1
             ((some c :: restCs).set 0 none)))
    | .leafNode =>
      ((hashFinal H o first last path
          (shortNodeEncode (hexToCompact (key ++ [16])) (.valueRef val)) []).2,
       .ok (.mk .hashedNode []
         (hashFinal H o first last path
           (shortNodeEncode (hexToCompact (key ++ [16])) (.valueRef val)) []).1
         children))
termination_by sizeOf st
decreasing_by
  all_goals simp_wf
  all_goals omega

/-- The loop over the sixteen child slots in the `branchNode` case of
`StackTrie.hash`: hash each present child at `path ++ [i]`, record its
reference (inline below 32 bytes, digest otherwise) and release the slot. -/
def hashChildren (H : List Nat → List Nat) (o : StackTrieOptions)
    (first last : Option (List Nat)) (cs : List (Option StNode))
    (path : List Nat) (i : Nat) :
    List Emission × Except StErr (List NodeRef) :=
  match cs with
  | [] => ([], .ok [])
  | none :: rest =>
    match hashChildren H o first last rest path (i + 1) with
    | (em, .error e) => (em, .error e)
    | (em, .ok refs) => (em, .ok (.nilRef :: refs))
  | some c :: rest =>
    match hashNode H o first last c (path ++ [i]) with
    | (em, .error e) => (em, .error e)
    | (em, .ok c') =>
      let ref : NodeRef :=
        if c'.val.length < 32 then .rawRef c'.val else .hashRef c'.val
      match hashChildren H o first last rest path (i + 1) with
      | (em2, .error e) => (em ++ em2, .error e)
      | (em2, .ok refs) => (em ++ em2, .ok (ref :: refs))
termination_by sizeOf cs
decreasing_by
  all_goals simp_wf <;> omega

end

/-- The elder-sibling scan of the `branchNode` case of `StackTrie.insert`
(lines 196-203): starting at slot `j` and moving down to slot 0, the first
occupied slot, if any, together with its index. -/
def scanElder (cs : List (Option StNode)) : Nat → Option (Nat × StNode)
  | 0 => (cs.getD 0 none).map (fun c => (0, c))
  | j + 1 =>
    match cs.getD (j + 1) none with
    | some c => some (j + 1, c)
    | none => scanElder cs j

/-- Lines 195-203 of stacktrie.go: the elder-sibling unresolution step of the
`branchNode` case of `StackTrie.insert`: hash the nearest occupied slot left
of `idx` if it is still live, returning the updated child slots. -/
def elderHash (H : List Nat → List Nat) (o : StackTrieOptions)
    (first last : Option (List Nat)) (children : List (Option StNode))
    (idx : Nat) (path : List Nat) :
    List Emission × Except StErr (List (Option StNode)) :=
  if idx = 0 then ([], .ok children)
  else
    match scanElder children (idx - 1) with
    | none => ([], .ok children)
    | some (i, c) =>
      if c.typ = .hashedNode then ([], .ok children)
      else
        match hashNode H o first last c (path ++ [i]) with
        | (em, .error e) => (em, .error e)
        | (em, .ok c') => (em, .ok (children.set i (some c')))

/-- Lines 230-243 of stacktrie.go: in the split case of the `extNode` arm of
`StackTrie.insert`, hash the preserved tail of the original extension: an
intermediate extension node when the break is not on the last nibble,
otherwise the extension's child directly. -/
def extTailHash (H : List Nat → List Nat) (o : StackTrieOptions)
    (first last : Option (List Nat)) (children : List (Option StNode))
    (nkey : List Nat) (diffidx : Nat) (path : List Nat) :
    List Emission × Except StErr StNode :=
  if diffidx < nkey.length - 1 then
    hashNode H o first last
      (newExt (nkey.drop (diffidx + 1)) (children.getD 0 none))
      (path ++ nkey.take (diffidx + 1))
  else
    match children.getD 0 none with
    | none => ([], .error .nilDereference)
    | some c => hashNode H o first last c (path ++ nkey)

/-- Lines 191-326 of stacktrie.go: `StackTrie.insert`. Inserts `(key, value)`
below `st`, which sits at absolute path `path`, returning the emission log
and the rewritten node (or the Go panic). -/
def insert (H : List Nat → List Nat) (o : StackTrieOptions)
    (first last : Option (List Nat)) (st : StNode)
    (key value path : List Nat) : List Emission × Except StErr StNode :=
  match st with
  | .mk typ nkey nval children =>
    match typ with
    | .branchNode =>
      match key with
      | [] => ([], .error .indexOutOfRange)
      | idx :: krest =>
        if h15 : 15 < idx then ([], .error .indexOutOfRange)
        else
          match elderHash H o first last children idx path with
          | (em, .error e) => (em, .error e)
          | (em, .ok cs') =>
            match hch : children.getD idx none with
            | none => (em, .ok (.mk .branchNode nkey nval
                (cs'.set idx (some (newLeaf krest value)))))
            | some child =>
              match insert H o first last child krest value (path ++ [idx]) with
              | (em2, .error e) => (em ++ em2, .error e)
              | (em2, .ok child') =>
                (em ++ em2, .ok (.mk .branchNode nkey nval
                  (cs'.set idx (some child'))))
    | .extNode =>
      match getDiffIndex nkey key with
      | .error e => ([], .error e)
      | .ok diffidx =>
        if hfull : diffidx = nkey.length then
          -- Full match: recurse into the child.
          match hch : children.getD 0 none with
          | none => ([], .error .nilDereference)
          | some child =>
            match insert H o first last child (key.drop diffidx) value
                (path ++ key.take diffidx) with
            | (em, .error e) => (em, .error e)
            | (em, .ok child') =>
              (em, .ok (.mk .extNode nkey nval (children.set 0 (some child'))))
        else
          -- Split: hash the preserved tail of the original extension.
          match extTailHash H o first last children nkey diffidx path with
          | (em, .error e) => (em, .error e)
          | (em, .ok n) =>
            let origIdx := nkey.getD diffidx 0
            let newIdx := key.getD diffidx 0
            if 15 < origIdx ∨ 15 < newIdx then (em, .error .indexOutOfRange)
            else
              let o' := newLeaf (key.drop (diffidx + 1)) value
              if diffidx = 0 then
                (em, .ok (.mk .branchNode [] nval
                  (((children.set 0 none).set origIdx (some n)).set newIdx (some o'))))
              else
                let br : StNode := .mk .branchNode [] []
                  ((nil16.set origIdx (some n)).set newIdx (some o'))
                (em, .ok (.mk .extNode (nkey.take diffidx) nval
                  (children.set 0 (some br))))
    | .leafNode =>
      match getDiffIndex nkey key with
      | .error e => ([], .error e)
      | .ok diffidx =>
        if nkey.length ≤ diffidx then ([], .error .duplicateKey)
        else
          let origIdx := nkey.getD diffidx 0
          let newIdx := key.getD diffidx 0
          if 15 < origIdx ∨ 15 < newIdx then ([], .error .indexOutOfRange)
          else
            match hashNode H o first last (newLeaf (nkey.drop (diffidx + 1)) nval)
                (path ++ nkey.take (diffidx + 1)) with
            | (em, .error e) => (em, .error e)
            | (em, .ok origHashed) =>
              let newL := newLeaf (key.drop (diffidx + 1)) value
              if diffidx = 0 then
                (em, .ok (.mk .branchNode [] []
                  (((children.set 0 none).set origIdx (some origHashed)).set
                    newIdx (some newL))))
              else
                let br : StNode := .mk .branchNode [] []
                  ((nil16.set origIdx (some origHashed)).set newIdx (some newL))
                (em, .ok (.mk .extNode (nkey.take diffidx) []
                  (children.set 0 (some br))))
    | .emptyNode => ([], .ok (.mk .leafNode key value children))
    | .hashedNode => ([], .error .insertIntoHash)
termination_by sizeOf st
decreasing_by
  all_goals simp_wf
  all_goals (have hlt := sizeOf_lt_of_getD hch; omega)

/-- The StackTrie record: options, root node, and the boundary keys. -/
structure STrie where
  options : StackTrieOptions
  root : StNode
  first : Option (List Nat)
  last : Option (List Nat)

/-- `NewStackTrie`: an empty trie with the given options. -/
def newStackTrie (o : StackTrieOptions) : STrie :=
  ⟨o, emptyStNode, none, none⟩

/-- Lines 101-119 of stacktrie.go: `StackTrie.TryUpdate`. The `Option StErr`
in the success value is the Go `error` returned by the function (`return nil`
is its only return statement). -/
def TryUpdate (H : List Nat → List Nat) (t : STrie) (key value : List Nat) :
    List Emission × Except StErr (STrie × Option StErr) :=
  let k0 := keybytesToHex key
  if value.length = 0 then ([], .error .deletionNotSupported)
  else
    let k := k0.dropLast
    let first := match t.first with | none => some k | some f => some f
    let last := some k
    match insert H t.options first last t.root k value [] with
    | (em, .error e) => (em, .error e)
    | (em, .ok root') =>
      (em, .ok (⟨t.options, root', first, last⟩, none))

/-- Lines 94-98 of stacktrie.go: `StackTrie.Update`. The boolean records
whether the error-logging branch ran. -/
def Update (H : List Nat → List Nat) (t : STrie) (key value : List Nat) :
    List Emission × Except StErr (STrie × Bool) :=
  match TryUpdate H t key value with
  | (em, .error e) => (em, .error e)
  | (em, .ok (t', e?)) => (em, .ok (t', e?.isSome))

/-- Lines 464-468 of stacktrie.go: `StackTrie.Hash` (and `Commit`, which is
identical): hash the root at the empty path and return
`common.BytesToHash(root.val)`. -/
def HashT (H : List Nat → List Nat) (t : STrie) :
    List Emission × Except StErr (STrie × List Nat) :=
  match hashNode H t.options t.first t.last t.root [] with
  | (em, .error e) => (em, .error e)
  | (em, .ok root') =>
    (em, .ok (⟨t.options, root', t.first, t.last⟩, bytesToHash root'.val))

/-- Fold a list of `(key, value)` updates over the trie, accumulating the
emission log; the first Go panic aborts the run. -/
def runUpdates (H : List Nat → List Nat) (t : STrie) :
    List (List Nat × List Nat) → List Emission × Except StErr STrie
  | [] => ([], .ok t)
  | (k, v) :: rest =>
    match TryUpdate H t k v with
    | (em, .error e) => (em, .error e)
    | (em, .ok (t', _)) =>
      match runUpdates H t' rest with
      | (em2, r) => (em ++ em2, r)

/-! ### Basic facts about `hashNode` -/

theorem hashNode_ok_typ {H : List Nat → List Nat} {o : StackTrieOptions}
    {first last : Option (List Nat)} {st : StNode} {path : List Nat}
    {em : List Emission} {st' : StNode}
    (h : hashNode H o first last st path = (em, .ok st')) :
    st'.typ = .hashedNode := by
  cases st with
  | mk typ key val children =>
    rw [hashNode.eq_def] at h
    cases typ <;> dsimp only at h
    case emptyNode =>
      simp only [Prod.mk.injEq, Except.ok.injEq] at h
      rw [← h.2]
      rfl
    case branchNode =>
      split at h
      · simp at h
      · simp only [Prod.mk.injEq, Except.ok.injEq] at h
        rw [← h.2]
        rfl
    case extNode =>
      split at h
      · simp at h
      · simp at h
      · split at h
        · simp at h
        · simp only [Prod.mk.injEq, Except.ok.injEq] at h
          rw [← h.2]
          rfl
    case leafNode =>
      simp only [Prod.mk.injEq, Except.ok.injEq] at h
      rw [← h.2]
      rfl
    case hashedNode =>
      simp only [Prod.mk.injEq, Except.ok.injEq] at h
      rw [← h.2]
      rfl

theorem hashNode_hashed {H : List Nat → List Nat} {o : StackTrieOptions}
    {first last : Option (List Nat)} {st : StNode} {path : List Nat}
    (h : st.typ = .hashedNode) :
    hashNode H o first last st path = ([], .ok st) := by
  cases st with
  | mk typ key val children =>
    cases typ <;> simp [StNode.typ] at h
    rw [hashNode.eq_def]

/-- A writer emission respects the boundary-skipping configuration: with the
left skip enabled its path is not a prefix of the first key, with the right
skip enabled its path is not a prefix of the last key. -/
def writeGuarded (o : StackTrieOptions) (first last : Option (List Nat))
    (e : Emission) : Prop :=
  ∀ p hsh b, e = .write p hsh b →
    (o.skipLeftBoundary = true → p.isPrefixOf (optBytes first) = false) ∧
    (o.skipRightBoundary = true → p.isPrefixOf (optBytes last) = false)

theorem hashFinal_writeGuarded {H : List Nat → List Nat} {o : StackTrieOptions}
    {first last : Option (List Nat)} {path blob : List Nat}
    {internal : List (List Nat)} {e : Emission}
    (he : e ∈ (hashFinal H o first last path blob internal).2) :
    writeGuarded o first last e := by
  intro p hsh b hbe
  subst hbe
  rw [hashFinal] at he
  split at he
  · simp at he
  · dsimp only at he
    split at he
    · simp at he
    · split at he
      · split at he <;> simp_all
      · split at he
        · split at he <;> simp_all
        · rename_i hW hL hR
          rw [List.mem_append] at he
          rcases he with he | he
          · simp only [List.mem_map] at he
            obtain ⟨q, _, hq⟩ := he
            cases hq
          · simp only [List.mem_singleton, Emission.write.injEq] at he
            obtain ⟨hp, -, -⟩ := he
            subst hp
            constructor
            · intro hs
              cases hpb : p.isPrefixOf (optBytes first)
              · rfl
              · exact absurd ⟨hs, hpb⟩ hL
            · intro hs
              cases hpb : p.isPrefixOf (optBytes last)
              · rfl
              · exact absurd ⟨hs, hpb⟩ hR

theorem hashNode_writeGuarded (H : List Nat → List Nat) (o : StackTrieOptions)
    (first last : Option (List Nat)) :
    ∀ (st : StNode) (path : List Nat),
      ∀ e ∈ (hashNode H o first last st path).1, writeGuarded o first last e := by
  refine hashNode.induct H o first last
    (fun st path => ∀ e ∈ (hashNode H o first last st path).1,
      writeGuarded o first last e)
    (fun cs path i => ∀ e ∈ (hashChildren H o first last cs path i).1,
      writeGuarded o first last e)
    ?_ ?_ ?_ ?_ ?_ ?_ ?_ ?_ ?_ ?_ ?_ ?_ ?_ ?_ ?_
  · intro path key val children e he
    rw [hashNode] at he
    simp at he
  · intro path key val children e he
    rw [hashNode] at he
    simp at he
  · intro path key val children em err hch ih e he
    rw [hashNode] at he
    simp only [hch] at he
    exact ih e (by rw [hch]; exact he)
  · intro path key val children em refs hch ih e he
    rw [hashNode] at he
    simp only [hch] at he
    rw [List.mem_append] at he
    rcases he with he | he
    · exact ih e (by rw [hch]; exact he)
    · exact hashFinal_writeGuarded he
  · intro path key val e he
    rw [hashNode] at he
    simp at he
  · intro path key val tail e he
    rw [hashNode] at he
    simp at he
  · intro path key val c restCs em err hcn ih e he
    rw [hashNode] at he
    simp only [hcn] at he
    exact ih e (by rw [hcn]; exact he)
  · intro path key val c restCs em c' hcn ih e he
    rw [hashNode] at he
    simp only [hcn] at he
    rw [List.mem_append] at he
    rcases he with he | he
    · exact ih e (by rw [hcn]; exact he)
    · exact hashFinal_writeGuarded he
  · intro path key val children e he
    rw [hashNode] at he
    exact hashFinal_writeGuarded he
  · intro path i e he
    rw [hashChildren] at he
    simp at he
  · intro path i rest em err hrest ih e he
    rw [hashChildren] at he
    simp only [hrest] at he
    exact ih e (by rw [hrest]; exact he)
  · intro path i rest em refs hrest ih e he
    rw [hashChildren] at he
    simp only [hrest] at he
    exact ih e (by rw [hrest]; exact he)
  · intro path i c rest em err hcn ih e he
    rw [hashChildren] at he
    simp only [hcn] at he
    exact ih e (by rw [hcn]; exact he)
  · intro path i c rest em c' hcn em2 err hrest ih ih2 e he
    rw [hashChildren] at he
    simp only [hcn, hrest] at he
    rw [List.mem_append] at he
    rcases he with he | he
    · exact ih e (by rw [hcn]; exact he)
    · exact ih2 e (by rw [hrest]; exact he)
  · intro path i c rest em c' hcn em2 refs hrest ih ih2 e he
    rw [hashChildren] at he
    simp only [hcn, hrest] at he
    rw [List.mem_append] at he
    rcases he with he | he
    · exact ih e (by rw [hcn]; exact he)
    · exact ih2 e (by rw [hrest]; exact he)

theorem elderHash_writeGuarded {H : List Nat → List Nat} {o : StackTrieOptions}
    {first last : Option (List Nat)} {children : List (Option StNode)}
    {idx : Nat} {path : List Nat} {e : Emission}
    (he : e ∈ (elderHash H o first last children idx path).1) :
    writeGuarded o first last e := by
  rw [elderHash] at he
  split at he
  · simp at he
  · split at he
    · simp at he
    · split at he
      · simp at he
      · split at he
        · exact hashNode_writeGuarded H o first last _ _ e (by rw [‹hashNode H o first last _ _ = _›]; exact he)
        · exact hashNode_writeGuarded H o first last _ _ e (by rw [‹hashNode H o first last _ _ = _›]; exact he)

theorem extTailHash_writeGuarded {H : List Nat → List Nat} {o : StackTrieOptions}
    {first last : Option (List Nat)} {children : List (Option StNode)}
    {nkey : List Nat} {diffidx : Nat} {path : List Nat} {e : Emission}
    (he : e ∈ (extTailHash H o first last children nkey diffidx path).1) :
    writeGuarded o first last e := by
  rw [extTailHash] at he
  split at he
  · exact hashNode_writeGuarded H o first last _ _ e he
  · split at he
    · simp at he
    · exact hashNode_writeGuarded H o first last _ _ e he

theorem insert_writeGuarded (H : List Nat → List Nat) (o : StackTrieOptions)
    (first last : Option (List Nat)) :
    ∀ (st : StNode) (key value path : List Nat),
      ∀ e ∈ (insert H o first last st key value path).1,
        writeGuarded o first last e := by
  intro st key value path
  induction st, key, value, path using insert.induct H o first last with
  | case1 value path key val children =>
    intro e he
    rw [insert] at he
    simp at he
  | case2 value path key val children idx krest h15 =>
    intro e he
    rw [insert.eq_def] at he
    dsimp only at he
    rw [dif_pos h15] at he
    simp at he
  | case3 value path key val children idx krest h15 em err helder =>
    intro e he
    rw [insert.eq_def] at he
    dsimp only at he
    rw [dif_neg h15] at he
    simp only [helder] at he
    exact elderHash_writeGuarded (by rw [helder]; exact he)
  | case4 value path key val children idx krest h15 em cs' helder hch =>
    intro e he
    rw [insert.eq_def] at he
    dsimp only at he
    rw [dif_neg h15] at he
    simp only [helder] at he
    split at he
    · exact elderHash_writeGuarded (by rw [helder]; exact he)
    · simp_all
  | case5 value path key val children idx krest h15 em cs' helder child hch em2 err hins ih =>
    intro e he
    rw [insert.eq_def] at he
    dsimp only at he
    rw [dif_neg h15] at he
    simp only [helder] at he
    split at he
    · simp_all
    · rename_i child' heq'
      rw [hch] at heq'
      injection heq' with hcc
      subst hcc
      simp only [hins] at he
      rw [List.mem_append] at he
      rcases he with he | he
      · exact elderHash_writeGuarded (by rw [helder]; exact he)
      · exact ih e (by rw [hins]; exact he)
  | case6 value path key val children idx krest h15 em cs' helder child hch em2 c' hins ih =>
    intro e he
    rw [insert.eq_def] at he
    dsimp only at he
    rw [dif_neg h15] at he
    simp only [helder] at he
    split at he
    · simp_all
    · rename_i child' heq'
      rw [hch] at heq'
      injection heq' with hcc
      subst hcc
      simp only [hins] at he
      rw [List.mem_append] at he
      rcases he with he | he
      · exact elderHash_writeGuarded (by rw [helder]; exact he)
      · exact ih e (by rw [hins]; exact he)
  | case7 key value path nkey val children err hgd =>
    intro e he
    rw [insert.eq_def] at he
    dsimp only at he
    simp only [hgd] at he
    simp at he
  | case8 key value path nkey val children hch hgd =>
    intro e he
    rw [insert.eq_def] at he
    dsimp only at he
    simp only [hgd] at he
    rw [dif_pos trivial] at he
    split at he
    · simp at he
    · simp_all
  | case9 key value path nkey val children child hch em err hgd hins ih =>
    intro e he
    rw [insert.eq_def] at he
    dsimp only at he
    simp only [hgd] at he
    rw [dif_pos trivial] at he
    split at he
    · simp_all
    · rename_i child' heq'
      rw [hch] at heq'
      injection heq' with hcc
      subst hcc
      simp only [hins] at he
      exact ih e (by rw [hins]; exact he)
  | case10 key value path nkey val children child hch em c' hgd hins ih =>
    intro e he
    rw [insert.eq_def] at he
    dsimp only at he
    simp only [hgd] at he
    rw [dif_pos trivial] at he
    split at he
    · simp_all
    · rename_i child' heq'
      rw [hch] at heq'
      injection heq' with hcc
      subst hcc
      simp only [hins] at he
      exact ih e (by rw [hins]; exact he)
  | case11 key value path nkey val children diffidx hgd hne em err htail =>
    intro e he
    rw [insert.eq_def] at he
    dsimp only at he
    simp only [hgd] at he
    rw [dif_neg hne] at he
    simp only [htail] at he
    exact extTailHash_writeGuarded (by rw [htail]; exact he)
  | case12 key value path nkey val children diffidx hgd hne em c' htail origIdx newIdx hbound =>
    intro e he
    rw [insert.eq_def] at he
    dsimp only at he
    simp only [hgd] at he
    rw [dif_neg hne] at he
    simp only [htail] at he
    split at he
    all_goals first
      | exact extTailHash_writeGuarded (by rw [htail]; exact he)
      | (split at he <;> exact extTailHash_writeGuarded (by rw [htail]; exact he))
  | case13 key value path nkey val children em c' hgd hne htail origIdx newIdx hbound =>
    intro e he
    rw [insert.eq_def] at he
    dsimp only at he
    simp only [hgd] at he
    rw [dif_neg hne] at he
    simp only [htail] at he
    split at he
    all_goals first
      | exact extTailHash_writeGuarded (by rw [htail]; exact he)
      | (split at he <;> exact extTailHash_writeGuarded (by rw [htail]; exact he))
  | case14 key value path nkey val children diffidx hgd hne em c' htail origIdx newIdx hbound hdne =>
    intro e he
    rw [insert.eq_def] at he
    dsimp only at he
    simp only [hgd] at he
    rw [dif_neg hne] at he
    simp only [htail] at he
    split at he
    all_goals first
      | exact extTailHash_writeGuarded (by rw [htail]; exact he)
      | (split at he <;> exact extTailHash_writeGuarded (by rw [htail]; exact he))
  | case15 key value path nkey val children err hgd =>
    intro e he
    rw [insert.eq_def] at he
    dsimp only at he
    simp only [hgd] at he
    simp at he
  | case16 key value path nkey val children diffidx hgd hdup =>
    intro e he
    rw [insert.eq_def] at he
    dsimp only at he
    simp only [hgd] at he
    rw [if_pos hdup] at he
    simp at he
  | case17 key value path nkey val children diffidx hgd hdup origIdx newIdx hbound =>
    intro e he
    rw [insert.eq_def] at he
    dsimp only at he
    simp only [hgd] at he
    rw [if_neg hdup] at he
    split at he
    all_goals first
      | exact absurd he (by simp)
      | (rename_i hcond; exact absurd hbound hcond)
  | case18 key value path nkey val children diffidx hgd hdup origIdx newIdx hbound em err hhash =>
    intro e he
    rw [insert.eq_def] at he
    dsimp only at he
    simp only [hgd] at he
    rw [if_neg hdup] at he
    split at he
    · exact absurd he (by simp)
    · simp only [hhash] at he
      exact hashNode_writeGuarded H o first last _ _ e (by rw [hhash]; exact he)
  | case19 key value path nkey val children em c' hgd hdup origIdx newIdx hbound hhash =>
    intro e he
    rw [insert.eq_def] at he
    dsimp only at he
    simp only [hgd] at he
    rw [if_neg hdup] at he
    split at he
    · exact absurd he (by simp)
    · simp only [hhash] at he
      first
        | exact hashNode_writeGuarded H o first last _ _ e (by rw [hhash]; exact he)
        | (split at he <;>
            exact hashNode_writeGuarded H o first last _ _ e (by rw [hhash]; exact he))
  | case20 key value path nkey val children diffidx hgd hdup origIdx newIdx hbound em c' hhash hdne =>
    intro e he
    rw [insert.eq_def] at he
    dsimp only at he
    simp only [hgd] at he
    rw [if_neg hdup] at he
    split at he
    · exact absurd he (by simp)
    · simp only [hhash] at he
      first
        | exact hashNode_writeGuarded H o first last _ _ e (by rw [hhash]; exact he)
        | (split at he <;>
            exact hashNode_writeGuarded H o first last _ _ e (by rw [hhash]; exact he))
  | case21 key value path nkey val children =>
    intro e he
    rw [insert] at he
    simp at he
  | case22 key value path nkey val children =>
    intro e he
    rw [insert] at he
    simp at he

theorem TryUpdate_writeGuarded {H : List Nat → List Nat} {t : STrie}
    {key value : List Nat} {e : Emission}
    (he : e ∈ (TryUpdate H t key value).1) :
    writeGuarded t.options
      (some (t.first.getD ((keybytesToHex key).dropLast)))
      (some ((keybytesToHex key).dropLast)) e := by
  rw [TryUpdate] at he
  split at he
  · simp at he
  · dsimp only at he
    rcases hf : t.first with - | f
    all_goals rw [hf] at he
    all_goals dsimp only at he
    all_goals split at he
    · exact insert_writeGuarded H t.options _ _ t.root _ value [] e
        (by rw [‹insert H t.options _ _ t.root _ value [] = _›]; exact he)
    · exact insert_writeGuarded H t.options _ _ t.root _ value [] e
        (by rw [‹insert H t.options _ _ t.root _ value [] = _›]; exact he)
    · exact insert_writeGuarded H t.options _ _ t.root _ value [] e
        (by rw [‹insert H t.options _ _ t.root _ value [] = _›]; exact he)
    · exact insert_writeGuarded H t.options _ _ t.root _ value [] e
        (by rw [‹insert H t.options _ _ t.root _ value [] = _›]; exact he)

theorem HashT_writeGuarded {H : List Nat → List Nat} {t : STrie} {e : Emission}
    (he : e ∈ (HashT H t).1) :
    writeGuarded t.options t.first t.last e := by
  rw [HashT] at he
  split at he
  · exact hashNode_writeGuarded H t.options t.first t.last t.root [] e
      (by rw [‹hashNode H t.options t.first t.last t.root [] = _›]; exact he)
  · exact hashNode_writeGuarded H t.options t.first t.last t.root [] e
      (by rw [‹hashNode H t.options t.first t.last t.root [] = _›]; exact he)

/-! ### The frontier ("spine") invariant -/

/-- A left sibling is either absent or already finalized (`Hashed`). -/
def elderOk : Option StNode → Prop
  | none => True
  | some n => n.typ = .hashedNode

/-- The tree invariant of the stack trie: the non-`Hashed` nodes form a
single path (the spine) from the root down to the position of the key `r`
most recently inserted; all siblings strictly left of the spine are absent
or `Hashed`, and no sibling right of it exists. -/
inductive Spine : StNode → List Nat → Prop where
  | leaf (key val : List Nat) (hval : ∀ x ∈ key, x < 16) :
      Spine (.mk .leafNode key val nil16) key
  | branch (val : List Nat) (cs : List (Option StNode)) (idx : Nat)
      (r' : List Nat) (child : StNode)
      (hidx : idx ≤ 15) (hlen : cs.length = 16)
      (hchild : cs.getD idx none = some child)
      (helder : ∀ j, j < idx → elderOk (cs.getD j none))
      (hright : ∀ j, idx < j → cs.getD j none = none)
      (hspine : Spine child r') :
      Spine (.mk .branchNode [] val cs) (idx :: r')
  | ext (key val : List Nat) (child : StNode) (r' : List Nat)
      (hkey : key ≠ []) (hval : ∀ x ∈ key, x < 16)
      (hspine : Spine child r') :
      Spine (.mk .extNode key val (nil16.set 0 (some child))) (key ++ r')

/-- Nodes on which `hash` cannot panic: every present branch child is again
such a node, and every extension has a present slot-0 child. -/
inductive HashOK : StNode → Prop where
  | hashed (key val : List Nat) (cs : List (Option StNode)) :
      HashOK (.mk .hashedNode key val cs)
  | empty (key val : List Nat) (cs : List (Option StNode)) :
      HashOK (.mk .emptyNode key val cs)
  | leaf (key val : List Nat) (cs : List (Option StNode)) :
      HashOK (.mk .leafNode key val cs)
  | branch (key val : List Nat) (cs : List (Option StNode))
      (h : ∀ c, some c ∈ cs → HashOK c) :
      HashOK (.mk .branchNode key val cs)
  | ext (key val : List Nat) (c : StNode) (rest : List (Option StNode))
      (h : HashOK c) :
      HashOK (.mk .extNode key val (some c :: rest))

/-- Proper divergence of two nibble paths: they agree up to an index `j`
inside both, where the first is strictly smaller. This is the precise form
of "strictly increasing keys": a later key that merely extends an earlier
one makes `Update` fail instead. -/
def nibDiv (r s : List Nat) : Prop :=
  ∃ j, j < r.length ∧ j < s.length ∧ r.take j = s.take j ∧ r.getD j 0 < s.getD j 0

theorem getD_set_self {α : Type} {cs : List α} {i : Nat} {x d : α}
    (h : i < cs.length) : (cs.set i x).getD i d = x := by
  induction cs generalizing i with
  | nil => simp at h
  | cons hd tl ih =>
    cases i with
    | zero => rfl
    | succ n => exact ih (by simpa using h)

theorem getD_set_ne {α : Type} {cs : List α} {i k : Nat} {x d : α}
    (h : i ≠ k) : (cs.set i x).getD k d = cs.getD k d := by
  induction cs generalizing i k with
  | nil => simp
  | cons hd tl ih =>
    cases i with
    | zero =>
      cases k with
      | zero => exact absurd rfl h
      | succ m => rfl
    | succ n =>
      cases k with
      | zero => rfl
      | succ m => exact ih (by omega)

theorem getD_length_le {α : Type} {cs : List α} {k : Nat} {d : α}
    (h : cs.length ≤ k) : cs.getD k d = d := by
  induction cs generalizing k with
  | nil => simp [List.getD]
  | cons hd tl ih =>
    cases k with
    | zero => simp at h
    | succ m => exact ih (by simpa using h)

theorem mem_exists_getD {cs : List (Option StNode)} {c : StNode}
    (h : some c ∈ cs) : ∃ j, j < cs.length ∧ cs.getD j none = some c := by
  induction cs with
  | nil => simp at h
  | cons hd tl ih =>
    rcases List.mem_cons.mp h with h | h
    · exact ⟨0, by simp, h.symm⟩
    · obtain ⟨j, hj, hg⟩ := ih h
      exact ⟨j + 1, by simpa using hj, hg⟩

theorem nil16_set0 (x : Option StNode) :
    nil16.set 0 x = x :: List.replicate 15 none := rfl

theorem getDiffIndex_append (s rest : List Nat) :
    getDiffIndex s (s ++ rest) = .ok s.length := by
  induction s with
  | nil => rfl
  | cons a tl ih => simp [getDiffIndex, ih, Except.map]

theorem getDiffIndex_diverge : ∀ (s key : List Nat) (j : Nat),
    j < s.length → j < key.length → s.take j = key.take j →
    s.getD j 0 ≠ key.getD j 0 → getDiffIndex s key = .ok j := by
  intro s key j
  induction s generalizing key j with
  | nil => intro h1; simp at h1
  | cons a tl ih =>
    intro h1 h2 h3 h4
    cases key with
    | nil => simp at h2
    | cons b ktl =>
      cases j with
      | zero =>
        simp [List.getD] at h4
        simp [getDiffIndex, h4]
      | succ m =>
        simp at h3
        have := ih ktl m (by simpa using h1) (by simpa using h2) h3.2
          (by simpa [List.getD] using h4)
        simp [getDiffIndex, h3.1, this, Except.map]

theorem scanElder_finds {cs : List (Option StNode)} {i : Nat} {c : StNode} :
    ∀ j, i ≤ j → cs.getD i none = some c →
    (∀ k, i < k → k ≤ j → cs.getD k none = none) →
    scanElder cs j = some (i, c) := by
  intro j
  induction j with
  | zero =>
    intro hij hc hnone
    have : i = 0 := by omega
    subst this
    rw [scanElder, hc]
    rfl
  | succ m ih =>
    intro hij hc hnone
    by_cases hi : i = m + 1
    · subst hi
      rw [scanElder, hc]
    · have h1 : cs.getD (m + 1) none = none := hnone (m + 1) (by omega) (le_refl _)
      rw [scanElder, h1]
      exact ih (by omega) hc (fun k hk1 hk2 => hnone k hk1 (by omega))

theorem scanElder_elders {cs : List (Option StNode)} :
    ∀ j, (∀ k, k ≤ j → elderOk (cs.getD k none)) →
    scanElder cs j = none ∨
      ∃ i c, scanElder cs j = some (i, c) ∧ c.typ = .hashedNode := by
  intro j
  induction j with
  | zero =>
    intro h
    rcases hg : cs.getD 0 none with - | c
    · left
      rw [scanElder, hg]
      rfl
    · right
      refine ⟨0, c, by rw [scanElder, hg]; rfl, ?_⟩
      have := h 0 (le_refl _)
      rw [hg] at this
      exact this
  | succ m ih =>
    intro h
    rcases hg : cs.getD (m + 1) none with - | c
    · rw [scanElder, hg]
      exact ih (fun k hk => h k (by omega))
    · right
      refine ⟨m + 1, c, by rw [scanElder, hg], ?_⟩
      have := h (m + 1) (le_refl _)
      rw [hg] at this
      exact this

theorem hashChildren_ok_of (H : List Nat → List Nat) (o : StackTrieOptions)
    (first last : Option (List Nat)) :
    ∀ (cs : List (Option StNode)) (path : List Nat) (i : Nat),
    (∀ c, some c ∈ cs → ∀ path', ∃ em st',
      hashNode H o first last c path' = (em, .ok st')) →
    ∃ em refs, hashChildren H o first last cs path i = (em, .ok refs) := by
  intro cs
  induction cs with
  | nil => exact fun path i _ => ⟨[], [], by rw [hashChildren]⟩
  | cons hd tl ih =>
    intro path i h
    cases hd with
    | none =>
      obtain ⟨em, refs, hr⟩ := ih path (i + 1) (fun c hc => h c (by simp [hc]))
      exact ⟨em, .nilRef :: refs, by rw [hashChildren, hr]⟩
    | some c =>
      obtain ⟨em1, c', hc⟩ := h c (by simp) (path ++ [i])
      obtain ⟨em2, refs, hr⟩ := ih path (i + 1) (fun c hc => h c (by simp [hc]))
      exact ⟨em1 ++ em2,
        (if c'.val.length < 32 then .rawRef c'.val else .hashRef c'.val) :: refs,
        by rw [hashChildren, hc, hr]⟩

theorem hashNode_ok_of_HashOK (H : List Nat → List Nat) (o : StackTrieOptions)
    (first last : Option (List Nat)) :
    ∀ {st : StNode}, HashOK st → ∀ path, ∃ em st',
      hashNode H o first last st path = (em, .ok st') := by
  intro st h
  induction h with
  | hashed key val cs => exact fun path => ⟨[], _, by rw [hashNode]⟩
  | empty key val cs => exact fun path => ⟨[], _, by rw [hashNode]⟩
  | leaf key val cs => exact fun path => ⟨_, _, by rw [hashNode]⟩
  | branch key val cs h ih =>
    intro path
    obtain ⟨em, refs, hr⟩ := hashChildren_ok_of H o first last cs path 0 ih
    exact ⟨_, _, by rw [hashNode, hr]⟩
  | ext key val c rest h ih =>
    intro path
    obtain ⟨em, c', hc⟩ := ih (path ++ key)
    exact ⟨_, _, by rw [hashNode, hc]⟩

theorem Spine.hashOK {st : StNode} {r : List Nat} (h : Spine st r) :
    HashOK st := by
  induction h with
  | leaf key val hval => exact HashOK.leaf _ _ _
  | branch val cs idx r' child hidx hlen hchild helder hright hspine ih =>
    refine HashOK.branch _ _ _ ?_
    intro c hc
    obtain ⟨j, hj, hg⟩ := mem_exists_getD hc
    rcases lt_trichotomy j idx with hlt | heq | hgt
    · have := helder j hlt
      rw [hg] at this
      cases c with
      | mk t k v cc =>
        simp [elderOk, StNode.typ] at this
        rw [this]
        exact HashOK.hashed _ _ _
    · subst heq
      rw [hg] at hchild
      injection hchild with h'
      rw [h']
      exact ih
    · rw [hright j hgt] at hg
      cases hg
  | ext key val child r' hkey hval hspine ih =>
    rw [nil16_set0]
    exact HashOK.ext _ _ _ _ ih

theorem Spine.typ_ne_hashed {st : StNode} {r : List Nat} (h : Spine st r) :
    ¬st.typ = .hashedNode := by
  cases h <;> simp [StNode.typ]

theorem getD_mem {α : Type} {l : List α} {j : Nat} {d : α}
    (h : j < l.length) : l.getD j d ∈ l := by
  induction l generalizing j with
  | nil => simp at h
  | cons hd tl ih =>
    cases j with
    | zero => exact List.mem_cons_self _ _
    | succ m => exact List.mem_cons_of_mem _ (ih (by simpa using h))

theorem getD_replicate {α : Type} {n k : Nat} {a : α} :
    (List.replicate n a).getD k a = a := by
  induction n generalizing k with
  | zero => simp [List.getD]
  | succ m ih =>
    cases k with
    | zero => rfl
    | succ j => exact ih

theorem drop_eq_getD_cons {α : Type} {l : List α} {j : Nat} {d : α}
    (h : j < l.length) : l.drop j = l.getD j d :: l.drop (j + 1) := by
  induction l generalizing j with
  | nil => simp at h
  | cons hd tl ih =>
    cases j with
    | zero => rfl
    | succ m => exact ih (by simpa using h)

theorem getD_append_left {α : Type} {l1 l2 : List α} {j : Nat} {d : α}
    (h : j < l1.length) : (l1 ++ l2).getD j d = l1.getD j d := by
  induction l1 generalizing j with
  | nil => simp at h
  | cons hd tl ih =>
    cases j with
    | zero => rfl
    | succ m => exact ih (by simpa using h)

theorem getD_append_right {α : Type} {l1 l2 : List α} {j : Nat} {d : α} :
    (l1 ++ l2).getD (l1.length + j) d = l2.getD j d := by
  induction l1 with
  | nil => simp
  | cons hd tl ih => simpa [Nat.succ_add] using ih

theorem take_append_left {α : Type} {l1 l2 : List α} {j : Nat}
    (h : j ≤ l1.length) : (l1 ++ l2).take j = l1.take j := by
  induction l1 generalizing j with
  | nil =>
    simp at h
    subst h
    simp
  | cons hd tl ih =>
    cases j with
    | zero => rfl
    | succ m => simpa using ih (by simpa using h)

theorem getD_nil16 (j : Nat) : nil16.getD j none = none := by
  rcases Nat.lt_or_ge j 16 with h | h
  · exact getD_replicate
  · exact getD_length_le (by simpa [nil16] using h)

theorem spine_branch_pair (bval tailKey value : List Nat) (orig new : Nat)
    (n0 : StNode) (base : List (Option StNode))
    (hlen : base.length = 16) (hbase : ∀ j, base.getD j none = none)
    (hon : orig < new) (hn15 : new ≤ 15) (htyp : n0.typ = .hashedNode)
    (hvalid : ∀ x ∈ tailKey, x < 16) :
    Spine (.mk .branchNode [] bval
        ((base.set orig (some n0)).set new (some (newLeaf tailKey value))))
      (new :: tailKey) := by
  refine Spine.branch bval _ new tailKey (newLeaf tailKey value) hn15
    (by simp [hlen]) ?_ ?_ ?_ ?_
  · exact getD_set_self (by simp [hlen]; omega)
  · intro j hj
    rw [getD_set_ne (by omega)]
    by_cases ho : orig = j
    · subst ho
      rw [getD_set_self (by simp [hlen]; omega)]
      exact htyp
    · rw [getD_set_ne ho, hbase]
      trivial
  · intro j hj
    rw [getD_set_ne (by omega), getD_set_ne (by omega), hbase]
  · exact Spine.leaf _ _ hvalid

theorem spine_congr {st : StNode} {A B : List Nat} (h : Spine st A)
    (he : A = B) : Spine st B := he ▸ h

theorem insert_spine (H : List Nat → List Nat) (o : StackTrieOptions)
    (first last : Option (List Nat)) :
    ∀ {st : StNode} {r : List Nat}, Spine st r →
    ∀ (key value path : List Nat), nibDiv r key → (∀ x ∈ key, x < 16) →
    ∃ em st', insert H o first last st key value path = (em, .ok st') ∧
      Spine st' key := by
  intro st r hsp
  induction hsp with
  | leaf key0 val0 hval0 =>
    intro key value path hdiv hvalid
    obtain ⟨j, hj1, hj2, hjt, hjlt⟩ := hdiv
    have hgd : getDiffIndex key0 key = .ok j :=
      getDiffIndex_diverge key0 key j hj1 hj2 hjt (by omega)
    have horig : key0.getD j 0 < 16 := hval0 _ (getD_mem hj1)
    have hnew : key.getD j 0 < 16 := hvalid _ (getD_mem hj2)
    obtain ⟨em0, n0, hh⟩ := hashNode_ok_of_HashOK H o first last
      (show HashOK (newLeaf (List.drop (j + 1) key0) val0) from HashOK.leaf _ _ _)
      (path ++ List.take (j + 1) key0)
    have htyp := hashNode_ok_typ hh
    have hdropkey : key.drop j = key.getD j 0 :: key.drop (j + 1) :=
      drop_eq_getD_cons hj2
    have hbase0 : ∀ k, (nil16.set 0 (none : Option StNode)).getD k none = none := by
      intro k
      rw [show (nil16.set 0 (none : Option StNode)) = nil16 from rfl]
      exact getD_nil16 k
    by_cases hj0 : j = 0
    · subst hj0
      refine ⟨em0, .mk .branchNode [] []
        (((nil16.set 0 none).set (key0.getD 0 0) (some n0)).set (key.getD 0 0)
          (some (newLeaf (key.drop 1) value))), ?_, ?_⟩
      · rw [insert.eq_def]
        dsimp only
        rw [hgd]
        dsimp only
        rw [if_neg (show ¬key0.length ≤ 0 by omega)]
        rw [if_neg (show ¬(15 < key0.getD 0 0 ∨ 15 < key.getD 0 0) by omega)]
        rw [hh]
        dsimp only
        rw [if_pos rfl]
      · refine spine_congr (spine_branch_pair [] (key.drop 1) value
          (key0.getD 0 0) (key.getD 0 0) n0 (nil16.set 0 none)
          (by simp [nil16]) hbase0 hjlt (by omega) htyp
          (fun x hx => hvalid x (List.mem_of_mem_drop hx))) ?_
        simpa using hdropkey.symm
    · refine ⟨em0, .mk .extNode (key0.take j) []
        (nil16.set 0 (some (.mk .branchNode [] []
          ((nil16.set (key0.getD j 0) (some n0)).set (key.getD j 0)
            (some (newLeaf (key.drop (j + 1)) value)))))), ?_, ?_⟩
      · rw [insert.eq_def]
        dsimp only
        rw [hgd]
        dsimp only
        rw [if_neg (show ¬key0.length ≤ j by omega)]
        rw [if_neg (show ¬(15 < key0.getD j 0 ∨ 15 < key.getD j 0) by omega)]
        rw [hh]
        dsimp only
        rw [if_neg hj0]
      · have hbr := spine_branch_pair [] (key.drop (j + 1)) value
          (key0.getD j 0) (key.getD j 0) n0 nil16
          (by simp [nil16]) getD_nil16 hjlt (by omega) htyp
          (fun x hx => hvalid x (List.mem_of_mem_drop hx))
        refine spine_congr (Spine.ext (key0.take j) [] _ (key.drop j)
          ?_ (fun x hx => hval0 x (List.mem_of_mem_take hx))
          (spine_congr hbr hdropkey.symm)) ?_
        · intro habs
          have hlen0 : (key0.take j).length = 0 := by rw [habs]; rfl
          rw [List.length_take] at hlen0
          omega
        · rw [hjt]
          exact List.take_append_drop j key
  | branch bval cs idx r' child hidx hlen hchild helder hright hspinech ih =>
    intro key value path hdiv hvalid
    obtain ⟨j, hj1, hj2, hjt, hjlt⟩ := hdiv
    cases key with
    | nil => simp at hj2
    | cons k0 krest =>
      by_cases hj0 : j = 0
      · subst hj0
        have hk0idx : idx < k0 := by simpa [List.getD] using hjlt
        have hk015 : k0 < 16 := hvalid k0 (by simp)
        obtain ⟨emh, ch', hh⟩ := hashNode_ok_of_HashOK H o first last
          hspinech.hashOK (path ++ [idx])
        have hchtyp := hashNode_ok_typ hh
        have hscan : scanElder cs (k0 - 1) = some (idx, child) :=
          scanElder_finds (k0 - 1) (by omega) hchild
            (fun k hk1 hk2 => hright k hk1)
        have helderEq : elderHash H o first last cs k0 path =
            (emh, .ok (cs.set idx (some ch'))) := by
          rw [elderHash]
          rw [if_neg (show ¬k0 = 0 by omega)]
          rw [hscan]
          dsimp only
          rw [if_neg hspinech.typ_ne_hashed]
          rw [hh]
        have hgetk0 : cs.getD k0 none = none := hright k0 hk0idx
        refine ⟨emh, .mk .branchNode [] bval
          ((cs.set idx (some ch')).set k0 (some (newLeaf krest value))), ?_, ?_⟩
        · rw [insert.eq_def]
          dsimp only
          rw [dif_neg (show ¬15 < k0 by omega)]
          rw [helderEq]
          dsimp only
          split
          · rfl
          · rename_i child'' heq
            rw [hgetk0] at heq
            cases heq
        · refine Spine.branch bval _ k0 krest (newLeaf krest value) (by omega)
            (by simp [hlen]) ?_ ?_ ?_
            (Spine.leaf _ _ (fun x hx => hvalid x (List.mem_cons_of_mem _ hx)))
          · exact getD_set_self (by simp [hlen]; omega)
          · intro j' hj'
            rw [getD_set_ne (by omega)]
            rcases lt_trichotomy j' idx with h1 | h1 | h1
            · rw [getD_set_ne (by omega)]
              exact helder j' h1
            · subst h1
              rw [getD_set_self (by simp [hlen]; omega)]
              exact hchtyp
            · rw [getD_set_ne (by omega), hright j' h1]
              trivial
          · intro j' hj'
            rw [getD_set_ne (by omega), getD_set_ne (by omega)]
            exact hright j' (by omega)
      · cases j with
        | zero => exact absurd rfl hj0
        | succ m =>
          simp only [List.take_succ_cons] at hjt
          injection hjt with hk0 htl
          subst hk0
          have hdiv' : nibDiv r' krest := by
            refine ⟨m, by simpa using hj1, by simpa using hj2, htl, ?_⟩
            simpa [List.getD] using hjlt
          obtain ⟨em2, child', hins2, hsp2⟩ := ih krest value (path ++ [idx])
            hdiv' (fun x hx => hvalid x (List.mem_cons_of_mem _ hx))
          have helderEq : elderHash H o first last cs idx path = ([], .ok cs) := by
            rw [elderHash]
            by_cases hi0 : idx = 0
            · rw [if_pos hi0]
            · rw [if_neg hi0]
              rcases scanElder_elders (idx - 1) (fun k hk => helder k (by omega))
                with hrs | ⟨i, c, hrs, hctyp⟩
              · rw [hrs]
              · rw [hrs]
                dsimp only
                rw [if_pos hctyp]
          refine ⟨[] ++ em2, .mk .branchNode [] bval (cs.set idx (some child')),
            ?_, ?_⟩
          · rw [insert.eq_def]
            dsimp only
            rw [dif_neg (show ¬15 < idx by omega)]
            rw [helderEq]
            dsimp only
            split
            · rename_i heq
              rw [hchild] at heq
              cases heq
            · rename_i child'' heq
              rw [hchild] at heq
              injection heq with hcc
              subst hcc
              rw [hins2]
          · refine Spine.branch bval _ idx krest child' hidx (by simp [hlen])
              ?_ ?_ ?_ hsp2
            · exact getD_set_self (by simp [hlen]; omega)
            · intro j' hj'
              rw [getD_set_ne (by omega)]
              exact helder j' hj'
            · intro j' hj'
              rw [getD_set_ne (by omega)]
              exact hright j' hj'
  | ext ekey eval child r'' hkey hval hspinech ih =>
    intro key value path hdiv hvalid
    obtain ⟨j, hj1, hj2, hjt, hjlt⟩ := hdiv
    have hcs0 : (nil16.set 0 (some child)).getD 0 none = some child := rfl
    by_cases hjlen : j < ekey.length
    · -- divergence inside the extension's key chunk
      have horig : ekey.getD j 0 < 16 := hval _ (getD_mem hjlen)
      have hnew : key.getD j 0 < 16 := hvalid _ (getD_mem hj2)
      have htake : ekey.take j = key.take j := by
        rw [← hjt]
        exact (take_append_left (le_of_lt hjlen)).symm
      have hgetr : (ekey ++ r'').getD j 0 = ekey.getD j 0 := getD_append_left hjlen
      have hlt' : ekey.getD j 0 < key.getD j 0 := by
        rw [← hgetr]
        exact hjlt
      have hgd : getDiffIndex ekey key = .ok j :=
        getDiffIndex_diverge ekey key j hjlen hj2 htake (by omega)
      have hok : ∃ emt n0,
          extTailHash H o first last (nil16.set 0 (some child)) ekey j path =
            (emt, .ok n0) ∧ n0.typ = .hashedNode := by
        rw [extTailHash]
        by_cases hsplit : j < ekey.length - 1
        · rw [if_pos hsplit]
          obtain ⟨emt, n0, hh⟩ := hashNode_ok_of_HashOK H o first last
            (show HashOK (newExt (ekey.drop (j + 1))
                ((nil16.set 0 (some child)).getD 0 none)) from
              HashOK.ext _ _ child (List.replicate 15 none) hspinech.hashOK)
            (path ++ ekey.take (j + 1))
          exact ⟨emt, n0, hh, hashNode_ok_typ hh⟩
        · rw [if_neg hsplit]
          rw [hcs0]
          obtain ⟨emt, n0, hh⟩ := hashNode_ok_of_HashOK H o first last
            hspinech.hashOK (path ++ ekey)
          exact ⟨emt, n0, hh, hashNode_ok_typ hh⟩
      obtain ⟨emt, n0, htail, htyp⟩ := hok
      have hdropkey : key.drop j = key.getD j 0 :: key.drop (j + 1) :=
        drop_eq_getD_cons hj2
      by_cases hj0 : j = 0
      · subst hj0
        refine ⟨emt, .mk .branchNode [] eval
          ((((nil16.set 0 (some child)).set 0 none).set (ekey.getD 0 0) (some n0)).set
            (key.getD 0 0) (some (newLeaf (key.drop 1) value))), ?_, ?_⟩
        · rw [insert.eq_def]
          dsimp only
          rw [hgd]
          dsimp only
          rw [dif_neg (show ¬(0 : Nat) = ekey.length by omega)]
          rw [htail]
          dsimp only
          rw [if_neg (show ¬(15 < ekey.getD 0 0 ∨ 15 < key.getD 0 0) by omega)]
          rw [if_pos rfl]
        · have hsets : ((nil16.set 0 (some child)).set 0 none) = nil16.set 0 none :=
            List.set_set _ _ _ _
          rw [hsets]
          refine spine_congr (spine_branch_pair eval (key.drop 1) value
            (ekey.getD 0 0) (key.getD 0 0) n0 (nil16.set 0 none)
            (by simp [nil16]) (fun k => by
              rw [show (nil16.set 0 (none : Option StNode)) = nil16 from rfl]
              exact getD_nil16 k)
            hlt' (by omega) htyp
            (fun x hx => hvalid x (List.mem_of_mem_drop hx))) ?_
          simpa using hdropkey.symm
      · refine ⟨emt, .mk .extNode (ekey.take j) eval
          ((nil16.set 0 (some child)).set 0 (some (.mk .branchNode [] []
            ((nil16.set (ekey.getD j 0) (some n0)).set (key.getD j 0)
              (some (newLeaf (key.drop (j + 1)) value)))))), ?_, ?_⟩
        · rw [insert.eq_def]
          dsimp only
          rw [hgd]
          dsimp only
          rw [dif_neg (show ¬j = ekey.length by omega)]
          rw [htail]
          dsimp only
          rw [if_neg (show ¬(15 < ekey.getD j 0 ∨ 15 < key.getD j 0) by omega)]
          rw [if_neg hj0]
        · have hsets : ∀ x, ((nil16.set 0 (some child)).set 0 x) = nil16.set 0 x :=
            fun x => List.set_set _ _ _ _
          rw [hsets]
          have hbr := spine_branch_pair [] (key.drop (j + 1)) value
            (ekey.getD j 0) (key.getD j 0) n0 nil16
            (by simp [nil16]) getD_nil16 hlt' (by omega) htyp
            (fun x hx => hvalid x (List.mem_of_mem_drop hx))
          refine spine_congr (Spine.ext (ekey.take j) eval _ (key.drop j)
            ?_ (fun x hx => hval x (List.mem_of_mem_take hx))
            (spine_congr hbr hdropkey.symm)) ?_
          · intro habs
            have hlen0 : (ekey.take j).length = 0 := by rw [habs]; rfl
            rw [List.length_take] at hlen0
            omega
          · rw [htake]
            exact List.take_append_drop j key
    · -- the extension chunk fully matches: recurse into the child
      have hjlen' : ekey.length ≤ j := by omega
      have hkeq : key.take ekey.length = ekey := by
        have h1 := congrArg (List.take ekey.length) hjt
        rw [List.take_take, List.take_take] at h1
        rw [Nat.min_eq_left hjlen'] at h1
        rw [take_append_left (le_refl _)] at h1
        rw [List.take_length] at h1
        exact h1.symm
      have hksplit : key = ekey ++ key.drop ekey.length := by
        conv_lhs => rw [← List.take_append_drop ekey.length key]
        rw [hkeq]
      have hgd : getDiffIndex ekey key = .ok ekey.length := by
        rw [hksplit]
        exact getDiffIndex_append _ _
      have hlen1 : (ekey ++ r'').length = ekey.length + r''.length := by simp
      have hdiv' : nibDiv r'' (key.drop ekey.length) := by
        refine ⟨j - ekey.length, by rw [hlen1] at hj1; omega,
          by rw [List.length_drop]; omega, ?_, ?_⟩
        · have h3 := congrArg (List.drop ekey.length) hjt
          rw [List.drop_take, List.drop_take] at h3
          rw [List.drop_left] at h3
          exact h3
        · have h4 : (ekey ++ r'').getD (ekey.length + (j - ekey.length)) 0 =
              r''.getD (j - ekey.length) 0 := getD_append_right
          have h5 : (ekey ++ key.drop ekey.length).getD
              (ekey.length + (j - ekey.length)) 0 =
              (key.drop ekey.length).getD (j - ekey.length) 0 := getD_append_right
          rw [show ekey.length + (j - ekey.length) = j by omega] at h4 h5
          rw [← hksplit] at h5
          rw [← h4, ← h5]
          exact hjlt
      obtain ⟨em2, child', hins2, hsp2⟩ := ih (key.drop ekey.length) value
        (path ++ key.take ekey.length) hdiv'
        (fun x hx => hvalid x (List.mem_of_mem_drop hx))
      refine ⟨em2, .mk .extNode ekey eval
        ((nil16.set 0 (some child)).set 0 (some child')), ?_, ?_⟩
      · rw [insert.eq_def]
        dsimp only
        rw [hgd]
        dsimp only
        rw [dif_pos rfl]
        split
        · rename_i heq
          rw [hcs0] at heq
          cases heq
        · rename_i child'' heq
          rw [hcs0] at heq
          injection heq with hcc
          subst hcc
          rw [hins2]
      · have hsets : ((nil16.set 0 (some child)).set 0 (some child')) =
            nil16.set 0 (some child') := List.set_set _ _ _ _
        rw [hsets]
        exact spine_congr (Spine.ext ekey eval child' (key.drop ekey.length)
          hkey hval hsp2) hksplit.symm


/-- The in-memory nibble path of a byte key: `keybytesToHex` with the
terminator chopped, as computed at the top of `TryUpdate`. -/
def keyNibbles (key : List Nat) : List Nat := (keybytesToHex key).dropLast

theorem keyNibbles_eq (key : List Nat) :
    keyNibbles key = (key.map (fun b => [b / 16, b % 16])).flatten := by
  rw [keyNibbles, keybytesToHex]
  exact List.dropLast_concat

theorem keyNibbles_append (x y : List Nat) :
    keyNibbles (x ++ y) = keyNibbles x ++ keyNibbles y := by
  simp [keyNibbles_eq]

theorem keyNibbles_cons (x : Nat) (l : List Nat) :
    keyNibbles (x :: l) = x / 16 :: x % 16 :: keyNibbles l := by
  simp [keyNibbles_eq]

theorem keyNibbles_length (k : List Nat) :
    (keyNibbles k).length = 2 * k.length := by
  rw [keyNibbles_eq]
  induction k with
  | nil => rfl
  | cons b tl ih =>
    simp at ih ⊢
    omega

theorem keyNibbles_valid {k : List Nat} (h : ∀ b ∈ k, b < 256) :
    ∀ x ∈ keyNibbles k, x < 16 := by
  rw [keyNibbles_eq]
  intro x hx
  simp only [List.mem_flatten, List.mem_map] at hx
  obtain ⟨l, ⟨b, hb, hl⟩, hxl⟩ := hx
  rw [← hl] at hxl
  have hbb := h b hb
  simp only [List.mem_cons, List.mem_singleton, List.not_mem_nil, or_false] at hxl
  rcases hxl with h1 | h1 <;> subst h1 <;> omega

theorem take_append_add {α : Type} (l1 l2 : List α) (n : Nat) :
    (l1 ++ l2).take (l1.length + n) = l1 ++ l2.take n := by
  induction l1 with
  | nil => simp
  | cons hd tl ih => simpa [Nat.succ_add] using ih

theorem nibDiv_keyNibbles {a b : List Nat}
    (ha : ∀ x ∈ a, x < 256) (hb : ∀ x ∈ b, x < 256)
    (h : nibDiv a b) : nibDiv (keyNibbles a) (keyNibbles b) := by
  obtain ⟨j, hj1, hj2, hjt, hjlt⟩ := h
  have hsa : a = a.take j ++ (a.getD j 0 :: a.drop (j + 1)) := by
    conv_lhs => rw [← List.take_append_drop j a]
    rw [drop_eq_getD_cons hj1]
  have hsb : b = b.take j ++ (b.getD j 0 :: b.drop (j + 1)) := by
    conv_lhs => rw [← List.take_append_drop j b]
    rw [drop_eq_getD_cons hj2]
  have hna : keyNibbles a = keyNibbles (a.take j) ++
      (a.getD j 0 / 16 :: a.getD j 0 % 16 :: keyNibbles (a.drop (j + 1))) := by
    conv_lhs => rw [hsa]
    rw [keyNibbles_append, keyNibbles_cons]
  have hnb : keyNibbles b = keyNibbles (b.take j) ++
      (b.getD j 0 / 16 :: b.getD j 0 % 16 :: keyNibbles (b.drop (j + 1))) := by
    conv_lhs => rw [hsb]
    rw [keyNibbles_append, keyNibbles_cons]
  have hPQ : keyNibbles (a.take j) = keyNibbles (b.take j) := by rw [hjt]
  have hPlen : (keyNibbles (a.take j)).length = 2 * j := by
    rw [keyNibbles_length, List.length_take, Nat.min_eq_left (by omega)]
  have hQlen : (keyNibbles (b.take j)).length = 2 * j := by
    rw [keyNibbles_length, List.length_take, Nat.min_eq_left (by omega)]
  have hlena : (keyNibbles a).length = 2 * a.length := keyNibbles_length a
  have hlenb : (keyNibbles b).length = 2 * b.length := keyNibbles_length b
  by_cases hhi : a.getD j 0 / 16 < b.getD j 0 / 16
  · refine ⟨2 * j, by omega, by omega, ?_, ?_⟩
    · rw [hna, hnb]
      rw [show 2 * j = (keyNibbles (a.take j)).length + 0 by omega]
      rw [take_append_add]
      rw [show (keyNibbles (a.take j)).length + 0 = (keyNibbles (b.take j)).length + 0
        by omega]
      rw [take_append_add]
      rw [hPQ]
      simp
    · rw [hna, hnb]
      rw [show 2 * j = (keyNibbles (a.take j)).length + 0 by omega]
      rw [getD_append_right]
      rw [show (keyNibbles (a.take j)).length + 0 = (keyNibbles (b.take j)).length + 0
        by omega]
      rw [getD_append_right]
      simpa using hhi
  · have haj := ha (a.getD j 0) (getD_mem hj1)
    have hbj := hb (b.getD j 0) (getD_mem hj2)
    have hhieq : a.getD j 0 / 16 = b.getD j 0 / 16 := by omega
    have hlo : a.getD j 0 % 16 < b.getD j 0 % 16 := by omega
    refine ⟨2 * j + 1, by omega, by omega, ?_, ?_⟩
    · rw [hna, hnb]
      rw [show 2 * j + 1 = (keyNibbles (a.take j)).length + 1 by omega]
      rw [take_append_add]
      rw [show (keyNibbles (a.take j)).length + 1 = (keyNibbles (b.take j)).length + 1
        by omega]
      rw [take_append_add]
      rw [hPQ]
      simp only [List.take_succ_cons, List.take_zero]
      rw [hhieq]
    · rw [hna, hnb]
      rw [show 2 * j + 1 = (keyNibbles (a.take j)).length + 1 by omega]
      rw [getD_append_right]
      rw [show (keyNibbles (a.take j)).length + 1 = (keyNibbles (b.take j)).length + 1
        by omega]
      rw [getD_append_right]
      simpa using hlo


theorem TryUpdate_spine (H : List Nat → List Nat) {t : STrie}
    {key value r : List Nat}
    (hsp : Spine t.root r) (hdiv : nibDiv r (keyNibbles key))
    (hb : ∀ x ∈ key, x < 256) (hv : value ≠ []) :
    ∃ em t', TryUpdate H t key value = (em, .ok (t', none)) ∧
      Spine t'.root (keyNibbles key) := by
  have hvlen : ¬(value.length = 0) := by
    intro h
    exact hv (List.length_eq_zero.mp h)
  rcases hf : t.first with - | f
  · obtain ⟨em, root', hins, hsp'⟩ := insert_spine H t.options
      (some (keyNibbles key)) (some (keyNibbles key)) hsp
      (keyNibbles key) value [] hdiv (keyNibbles_valid hb)
    refine ⟨em, ⟨t.options, root', some (keyNibbles key), some (keyNibbles key)⟩,
      ?_, hsp'⟩
    rw [TryUpdate]
    rw [if_neg hvlen]
    dsimp only
    rw [hf]
    dsimp only
    rw [show (keybytesToHex key).dropLast = keyNibbles key from rfl]
    rw [hins]
  · obtain ⟨em, root', hins, hsp'⟩ := insert_spine H t.options
      (some f) (some (keyNibbles key)) hsp
      (keyNibbles key) value [] hdiv (keyNibbles_valid hb)
    refine ⟨em, ⟨t.options, root', some f, some (keyNibbles key)⟩, ?_, hsp'⟩
    rw [TryUpdate]
    rw [if_neg hvlen]
    dsimp only
    rw [hf]
    dsimp only
    rw [show (keybytesToHex key).dropLast = keyNibbles key from rfl]
    rw [hins]

theorem TryUpdate_spine_base (H : List Nat → List Nat) {t : STrie}
    {key value : List Nat}
    (hroot : t.root = emptyStNode)
    (hb : ∀ x ∈ key, x < 256) (hv : value ≠ []) :
    ∃ em t', TryUpdate H t key value = (em, .ok (t', none)) ∧
      Spine t'.root (keyNibbles key) := by
  have hvlen : ¬(value.length = 0) := by
    intro h
    exact hv (List.length_eq_zero.mp h)
  have hins : ∀ first last, insert H t.options first last t.root
      (keyNibbles key) value [] =
      ([], .ok (.mk .leafNode (keyNibbles key) value nil16)) := by
    intro first last
    rw [hroot, emptyStNode, insert]
  rcases hf : t.first with - | f
  · refine ⟨[], ⟨t.options, .mk .leafNode (keyNibbles key) value nil16,
      some (keyNibbles key), some (keyNibbles key)⟩, ?_, ?_⟩
    · rw [TryUpdate]
      rw [if_neg hvlen]
      dsimp only
      rw [hf]
      dsimp only
      rw [show (keybytesToHex key).dropLast = keyNibbles key from rfl]
      rw [hins]
    · exact Spine.leaf _ _ (keyNibbles_valid hb)
  · refine ⟨[], ⟨t.options, .mk .leafNode (keyNibbles key) value nil16,
      some f, some (keyNibbles key)⟩, ?_, ?_⟩
    · rw [TryUpdate]
      rw [if_neg hvlen]
      dsimp only
      rw [hf]
      dsimp only
      rw [show (keybytesToHex key).dropLast = keyNibbles key from rfl]
      rw [hins]
    · exact Spine.leaf _ _ (keyNibbles_valid hb)

theorem runUpdates_spine (H : List Nat → List Nat) :
    ∀ (ps : List (List Nat × List Nat)) (t : STrie) (r : List Nat),
    Spine t.root r →
    (∀ p ∈ ps, ∀ x ∈ p.1, x < 256) →
    (∀ p ∈ ps, p.2 ≠ []) →
    List.Chain' nibDiv (r :: ps.map (fun p => keyNibbles p.1)) →
    ∃ em t', runUpdates H t ps = (em, .ok t') ∧
      Spine t'.root ((ps.map (fun p => keyNibbles p.1)).getLastD r) := by
  intro ps
  induction ps with
  | nil =>
    intro t r hsp _ _ _
    exact ⟨[], t, by rw [runUpdates], hsp⟩
  | cons p ps' ih =>
    intro t r hsp hb hv hchain
    rw [List.map_cons, List.chain'_cons] at hchain
    obtain ⟨h1, h2⟩ := hchain
    obtain ⟨em1, t1, htu, hsp1⟩ := TryUpdate_spine H hsp h1
      (hb p (List.mem_cons_self _ _)) (hv p (List.mem_cons_self _ _))
    obtain ⟨em2, t2, hrun, hsp2⟩ := ih t1 (keyNibbles p.1) hsp1
      (fun q hq => hb q (List.mem_cons_of_mem _ hq))
      (fun q hq => hv q (List.mem_cons_of_mem _ hq)) h2
    refine ⟨em1 ++ em2, t2, ?_, ?_⟩
    · rw [runUpdates]
      rw [htu]
      dsimp only
      rw [hrun]
    · rw [List.map_cons, List.getLastD_cons]
      exact hsp2

theorem chain_nibDiv_keyNibbles :
    ∀ (l : List (List Nat × List Nat)),
    (∀ p ∈ l, ∀ x ∈ p.1, x < 256) →
    List.Chain' nibDiv (l.map Prod.fst) →
    List.Chain' nibDiv (l.map (fun p => keyNibbles p.1)) := by
  intro l
  induction l with
  | nil => intro _ _; simp
  | cons p l2 ih =>
    cases l2 with
    | nil => intro _ _; simp
    | cons q l3 =>
      intro hb hch
      rw [List.map_cons, List.map_cons, List.chain'_cons] at hch ⊢
      obtain ⟨h1, h2⟩ := hch
      refine ⟨nibDiv_keyNibbles (hb p (List.mem_cons_self _ _))
        (hb q (List.mem_cons_of_mem _ (List.mem_cons_self _ _))) h1, ?_⟩
      have := ih (fun r hr => hb r (List.mem_cons_of_mem _ hr)) ?_
      · rw [List.map_cons] at this
        exact this
      · rw [List.map_cons]
        exact h2


/-- Hashing a row of absent children emits nothing and yields nil refs. -/
theorem hashChildren_none (H : List Nat → List Nat) (o : StackTrieOptions)
    (first last : Option (List Nat)) :
    ∀ (cs : List (Option StNode)) (path : List Nat) (i : Nat),
      (∀ j, cs.getD j none = none) →
      hashChildren H o first last cs path i =
        ([], .ok (cs.map fun _ => NodeRef.nilRef)) := by
  intro cs
  induction cs with
  | nil => intro path i h; rw [hashChildren]; rfl
  | cons hd tl ih =>
    intro path i h
    have h0 : hd = none := h 0
    subst h0
    rw [hashChildren]
    rw [ih path (i + 1) (fun j => h (j + 1))]
    rfl

/-- Hashing a row of children with a single live slot `t` (elders finalized
left of it, nothing right of it) emits exactly the live child's emissions. -/
theorem hashChildren_single (H : List Nat → List Nat) (o : StackTrieOptions)
    (first last : Option (List Nat)) :
    ∀ (cs : List (Option StNode)) (t : Nat) (child : StNode) (path : List Nat)
      (i : Nat) (em : List Emission) (c' : StNode),
      cs.getD t none = some child →
      (∀ j, j < t → elderOk (cs.getD j none)) →
      (∀ j, t < j → cs.getD j none = none) →
      hashNode H o first last child (path ++ [i + t]) = (em, .ok c') →
      ∃ refs, hashChildren H o first last cs path i = (em, .ok refs) := by
  intro cs
  induction cs with
  | nil =>
    intro t child path i em c' hch
    simp [List.getD] at hch
  | cons hd tl ih =>
    intro t child path i em c' hch helder hright hh
    cases t with
    | zero =>
      have hhd : hd = some child := hch
      subst hhd
      have htl : ∀ j, tl.getD j none = none := fun j => hright (j + 1) (by omega)
      rw [hashChildren]
      rw [show i + 0 = i from rfl] at hh
      rw [hh]
      dsimp only
      rw [hashChildren_none H o first last tl path (i + 1) htl]
      exact ⟨_, by dsimp only; rw [List.append_nil]⟩
    | succ s =>
      have hch' : tl.getD s none = some child := hch
      have helder' : ∀ j, j < s → elderOk (tl.getD j none) :=
        fun j hj => helder (j + 1) (by omega)
      have hright' : ∀ j, s < j → tl.getD j none = none :=
        fun j hj => hright (j + 1) (by omega)
      have hh' : hashNode H o first last child (path ++ [(i + 1) + s]) =
          (em, .ok c') := by
        rw [show (i + 1) + s = i + (s + 1) by omega]
        exact hh
      obtain ⟨refs, hrec⟩ := ih s child path (i + 1) em c' hch' helder' hright' hh'
      have h0 := helder 0 (by omega)
      cases hd with
      | none =>
        rw [hashChildren, hrec]
        exact ⟨_, rfl⟩
      | some c =>
        have htyp : c.typ = .hashedNode := h0
        rw [hashChildren]
        rw [hashNode_hashed htyp]
        dsimp only
        rw [hrec]
        exact ⟨_, by dsimp only; rw [List.nil_append]⟩


/-! ### Claims -/

/-- C1: For a trie on which no Update has been performed, `Hash()` returns the
canonical empty-root constant `Keccak256(rlp(""))` (the 32-byte constant
`emptyRoot`), the emission log is empty, and the root node becomes `Hashed`
with that 32-byte value. -/
theorem claim_C1_empty_trie_hash (H : List Nat → List Nat) (o : StackTrieOptions) :
    HashT H (newStackTrie o) =
      ([], .ok (⟨o, .mk .hashedNode [] emptyRoot nil16, none, none⟩, emptyRoot)) ∧
    emptyRoot.length = 32 := by
  constructor
  · rw [HashT, newStackTrie]
    rw [show (⟨o, emptyStNode, none, none⟩ : STrie).root = emptyStNode from rfl]
    rw [emptyStNode, hashNode]
    rfl
  · rfl

/-- C3: whenever the encoded blob of a node at a non-empty path is shorter
than 32 bytes, the finalization step stores the blob itself as the node's
value and performs no writer, cleaner or gauge emission for that node; and
every node successfully processed by `hash` ends up with kind `Hashed`. -/
theorem claim_C3_small_blob_inline :
    (∀ (H : List Nat → List Nat) (o : StackTrieOptions)
        (first last : Option (List Nat)) (path blob : List Nat)
        (internal : List (List Nat)),
      blob.length < 32 → path ≠ [] →
      hashFinal H o first last path blob internal = (blob, [])) ∧
    (∀ (H : List Nat → List Nat) (o : StackTrieOptions)
        (first last : Option (List Nat)) (st : StNode) (path : List Nat)
        (em : List Emission) (st' : StNode),
      hashNode H o first last st path = (em, .ok st') →
      st'.typ = .hashedNode) := by
  constructor
  · intro H o first last path blob internal h1 h2
    rw [hashFinal, if_pos ⟨h1, h2⟩]
  · intro H o first last st path em st' h
    exact hashNode_ok_typ h

/-- Witness for C3 at a concrete input: a leaf with a short encoding at a
non-empty path is inlined with no emissions, and hashing it yields a
`Hashed` node. -/
theorem claim_C3_witness :
    ((5 : Nat) < 32 ∧ ([0] : List Nat) ≠ []) ∧
    hashFinal (fun _ => List.replicate 32 0) ⟨true, true, false, false, false⟩
      none none [0] [196, 130, 32, 160, 1] [] = ([196, 130, 32, 160, 1], []) ∧
    (hashNode (fun _ => List.replicate 32 0) ⟨true, true, false, false, false⟩
      none none (newLeaf [10, 0] [1]) [0]).2.map StNode.typ =
        .ok .hashedNode := by
  refine ⟨⟨by decide, by decide⟩, ?_, ?_⟩
  · exact claim_C3_small_blob_inline.1 _ _ _ _ _ _ _ (by decide) (by decide)
  · have h : hashNode (fun _ => List.replicate 32 0)
        ⟨true, true, false, false, false⟩ none none (newLeaf [10, 0] [1]) [0] =
        (([] : List Emission), .ok (.mk .hashedNode [] [196, 130, 32, 160, 1] nil16)) := by
      rw [newLeaf, hashNode]
      rfl
    rw [h]
    exact congrArg Except.ok (claim_C3_small_blob_inline.2 (fun _ => List.replicate 32 0)
      ⟨true, true, false, false, false⟩ none none (newLeaf [10, 0] [1]) [0]
      [] (.mk .hashedNode [] [196, 130, 32, 160, 1] nil16) h)

/-- C4: with `skip_left_boundary` set, every path handed to the writer during
any `hash` call, any `TryUpdate` and any `Hash()` is not a prefix of the
tracked first-inserted key, and a node skipped on the left boundary
increments the gauge when present; symmetrically for `skip_right_boundary`
and the last-inserted key. -/
theorem claim_C4_boundary_skipping :
    (∀ (H : List Nat → List Nat) (o : StackTrieOptions)
        (first last : Option (List Nat)) (st : StNode) (path p hsh b : List Nat),
      o.skipLeftBoundary = true →
      Emission.write p hsh b ∈ (hashNode H o first last st path).1 →
      p.isPrefixOf (optBytes first) = false) ∧
    (∀ (H : List Nat → List Nat) (o : StackTrieOptions)
        (first last : Option (List Nat)) (st : StNode) (path p hsh b : List Nat),
      o.skipRightBoundary = true →
      Emission.write p hsh b ∈ (hashNode H o first last st path).1 →
      p.isPrefixOf (optBytes last) = false) ∧
    (∀ (H : List Nat → List Nat) (t : STrie) (key value p hsh b : List Nat),
      t.options.skipLeftBoundary = true →
      Emission.write p hsh b ∈ (TryUpdate H t key value).1 →
      p.isPrefixOf (t.first.getD ((keybytesToHex key).dropLast)) = false) ∧
    (∀ (H : List Nat → List Nat) (t : STrie) (key value p hsh b : List Nat),
      t.options.skipRightBoundary = true →
      Emission.write p hsh b ∈ (TryUpdate H t key value).1 →
      p.isPrefixOf ((keybytesToHex key).dropLast) = false) ∧
    (∀ (H : List Nat → List Nat) (t : STrie) (p hsh b : List Nat),
      t.options.skipLeftBoundary = true →
      Emission.write p hsh b ∈ (HashT H t).1 →
      p.isPrefixOf (optBytes t.first) = false) ∧
    (∀ (H : List Nat → List Nat) (t : STrie) (p hsh b : List Nat),
      t.options.skipRightBoundary = true →
      Emission.write p hsh b ∈ (HashT H t).1 →
      p.isPrefixOf (optBytes t.last) = false) ∧
    (∀ (H : List Nat → List Nat) (o : StackTrieOptions)
        (first last : Option (List Nat)) (path blob : List Nat)
        (internal : List (List Nat)),
      ¬(blob.length < 32 ∧ path ≠ []) →
      o.hasWriter = true →
      o.skipLeftBoundary = true →
      path.isPrefixOf (optBytes first) = true →
      o.hasGauge = true →
      (hashFinal H o first last path blob internal).2 = [.gaugeInc]) ∧
    (∀ (H : List Nat → List Nat) (o : StackTrieOptions)
        (first last : Option (List Nat)) (path blob : List Nat)
        (internal : List (List Nat)),
      ¬(blob.length < 32 ∧ path ≠ []) →
      o.hasWriter = true →
      ¬(o.skipLeftBoundary = true ∧ path.isPrefixOf (optBytes first) = true) →
      o.skipRightBoundary = true →
      path.isPrefixOf (optBytes last) = true →
      o.hasGauge = true →
      (hashFinal H o first last path blob internal).2 = [.gaugeInc]) := by
  refine ⟨?_, ?_, ?_, ?_, ?_, ?_, ?_, ?_⟩
  · intro H o first last st path p hsh b hs he
    exact ((hashNode_writeGuarded H o first last st path _ he) p hsh b rfl).1 hs
  · intro H o first last st path p hsh b hs he
    exact ((hashNode_writeGuarded H o first last st path _ he) p hsh b rfl).2 hs
  · intro H t key value p hsh b hs he
    exact ((TryUpdate_writeGuarded he) p hsh b rfl).1 hs
  · intro H t key value p hsh b hs he
    exact ((TryUpdate_writeGuarded he) p hsh b rfl).2 hs
  · intro H t p hsh b hs he
    exact ((HashT_writeGuarded he) p hsh b rfl).1 hs
  · intro H t p hsh b hs he
    exact ((HashT_writeGuarded he) p hsh b rfl).2 hs
  · intro H o first last path blob internal h1 h2 h3 h4 h5
    rw [hashFinal, if_neg h1]
    dsimp only
    rw [if_neg (by rw [h2]; simp), if_pos ⟨h3, h4⟩]
    rw [if_pos h5]
  · intro H o first last path blob internal h1 h2 hL h3 h4 h5
    rw [hashFinal, if_neg h1]
    dsimp only
    rw [if_neg (by rw [h2]; simp), if_neg hL, if_pos ⟨h3, h4⟩]
    rw [if_pos h5]

theorem length_rlpString_ge (b : List Nat) : b.length ≤ (rlpString b).length := by
  rw [rlpString]
  split
  · exact le_refl _
  · split
    · simp
    · simp
      omega

theorem length_rlpListPayload_ge (p : List Nat) :
    p.length + 1 ≤ (rlpListPayload p).length := by
  rw [rlpListPayload]
  split
  · simp
  · simp
    try omega

/-- Concrete 32-byte stand-in for the external Keccak-256, used only as a
witness fixture. -/
def wH : List Nat → List Nat := fun _ => List.replicate 32 1

/-- A 40-byte value, large enough that its leaf encoding is never inlined. -/
def wVal : List Nat := List.replicate 40 7

/-- Witness fixture: writer present, both boundary skips on, gauge present. -/
def wOpts : StackTrieOptions := ⟨true, false, true, true, true⟩

/-- Witness fixture: writer present, only the right boundary skip on. -/
def wOptsR : StackTrieOptions := ⟨true, false, false, true, true⟩

/-- Witness fixture: a branch with a hashed slot 0 and a live leaf in slot 2. -/
def wChildren : List (Option StNode) :=
  (nil16.set 0 (some (.mk .hashedNode [] (List.replicate 32 9) nil16))).set 2
    (some (newLeaf [1] wVal))

/-- Witness fixture: a trie whose first key is `[0,0]` and last is `[2,1]`. -/
def wTrieA : STrie := ⟨wOpts, .mk .branchNode [] [] wChildren, some [0, 0], some [2, 1]⟩

/-- Witness fixture: a trie whose first key is `[0,0]` and last is `[3,3]`. -/
def wTrieB : STrie := ⟨wOpts, .mk .branchNode [] [] wChildren, some [0, 0], some [3, 3]⟩

/-- Witness for C4 at concrete inputs: a writer emission produced by `hash`,
one produced inside `TryUpdate`, and one produced by `Hash()` each avoid the
respective boundary prefixes, and a skipped boundary node increments the
gauge on both sides. -/
theorem claim_C4_witness :
    (Emission.write [1] (List.replicate 32 1) ([236, 130, 32, 35, 168] ++ List.replicate 40 7)
        ∈ (hashNode wH wOpts (some [0, 0]) (some [3, 3]) (newLeaf [2, 3] wVal) [1]).1
      ∧ List.isPrefixOf [1] (optBytes (some [0, 0])) = false) ∧
    (List.isPrefixOf [1] (optBytes (some [3, 3])) = false) ∧
    (Emission.write [2] (List.replicate 32 1) ([234, 49, 168] ++ List.replicate 40 7)
        ∈ (TryUpdate wH wTrieA [49] wVal).1
      ∧ List.isPrefixOf [2] (wTrieA.first.getD ((keybytesToHex [49]).dropLast)) = false) ∧
    (List.isPrefixOf [2] ((keybytesToHex [49]).dropLast) = false) ∧
    (Emission.write [2] (List.replicate 32 1) ([234, 49, 168] ++ List.replicate 40 7)
        ∈ (HashT wH wTrieB).1
      ∧ List.isPrefixOf [2] (optBytes wTrieB.first) = false) ∧
    (List.isPrefixOf [2] (optBytes wTrieB.last) = false) ∧
    ((hashFinal wH wOpts (some [0, 0]) (some [3, 3]) [0] (List.replicate 40 7) []).2
      = [.gaugeInc]) ∧
    ((hashFinal wH wOptsR (some [0, 0]) (some [0, 1]) [0, 1] (List.replicate 40 7) []).2
      = [.gaugeInc]) := by
  have hm1 : (hashNode wH wOpts (some [0, 0]) (some [3, 3]) (newLeaf [2, 3] wVal) [1]).1 =
      [.write [1] (List.replicate 32 1) ([236, 130, 32, 35, 168] ++ List.replicate 40 7)] := by
    rw [newLeaf, hashNode]
    rfl
  have eL : hashNode wH wOpts (some [0, 0]) (some [3, 1]) (newLeaf [1] wVal)
      ([] ++ [2]) =
      ([.write [2] (List.replicate 32 1) ([234, 49, 168] ++ List.replicate 40 7)],
       .ok (.mk .hashedNode [] (List.replicate 32 1) nil16)) := by
    rw [newLeaf, hashNode]
    rfl
  have eElder : elderHash wH wOpts (some [0, 0]) (some [3, 1]) wChildren 3 [] =
      ([.write [2] (List.replicate 32 1) ([234, 49, 168] ++ List.replicate 40 7)],
       .ok (wChildren.set 2 (some (.mk .hashedNode [] (List.replicate 32 1) nil16)))) := by
    rw [elderHash]
    rw [if_neg (by decide)]
    rw [show scanElder wChildren (3 - 1) = some (2, newLeaf [1] wVal) from rfl]
    dsimp only
    rw [if_neg (by decide)]
    rw [eL]
  have eI : insert wH wOpts (some [0, 0]) (some [3, 1])
      (.mk .branchNode [] [] wChildren) [3, 1] wVal [] =
      ([.write [2] (List.replicate 32 1) ([234, 49, 168] ++ List.replicate 40 7)],
       .ok (.mk .branchNode [] []
         ((wChildren.set 2 (some (.mk .hashedNode [] (List.replicate 32 1) nil16))).set 3
           (some (newLeaf [1] wVal))))) := by
    rw [insert.eq_def]
    dsimp only
    rw [dif_neg (by decide)]
    rw [eElder]
    rfl
  have hm2eq : TryUpdate wH wTrieA [49] wVal =
      ([.write [2] (List.replicate 32 1) ([234, 49, 168] ++ List.replicate 40 7)],
       .ok (⟨wOpts, .mk .branchNode [] []
         ((wChildren.set 2 (some (.mk .hashedNode [] (List.replicate 32 1) nil16))).set 3
           (some (newLeaf [1] wVal))), some [0, 0], some [3, 1]⟩, none)) := by
    rw [TryUpdate]
    rw [if_neg (by decide)]
    dsimp only
    rw [show wTrieA.first = some [0, 0] from rfl]
    dsimp only
    rw [show (keybytesToHex [49]).dropLast = [3, 1] from rfl]
    rw [show wTrieA.options = wOpts from rfl]
    rw [show wTrieA.root = .mk .branchNode [] [] wChildren from rfl]
    rw [eI]
  have hm2 : (TryUpdate wH wTrieA [49] wVal).1 =
      [.write [2] (List.replicate 32 1) ([234, 49, 168] ++ List.replicate 40 7)] := by
    rw [hm2eq]
  have eL2 : hashNode wH wOpts (some [0, 0]) (some [3, 3]) (newLeaf [1] wVal)
      ([] ++ [0 + 2]) =
      ([.write [2] (List.replicate 32 1) ([234, 49, 168] ++ List.replicate 40 7)],
       .ok (.mk .hashedNode [] (List.replicate 32 1) nil16)) := by
    rw [newLeaf, hashNode]
    rfl
  obtain ⟨refs, hcs⟩ := hashChildren_single wH wOpts (some [0, 0]) (some [3, 3])
    wChildren 2 (newLeaf [1] wVal) [] 0
    [.write [2] (List.replicate 32 1) ([234, 49, 168] ++ List.replicate 40 7)]
    (.mk .hashedNode [] (List.replicate 32 1) nil16)
    rfl
    (by
      intro j hj
      rcases j with - | jm
      · exact rfl
      · rcases jm with - | jm2
        · exact trivial
        · omega)
    (by
      intro j hj
      rw [wChildren, getD_set_ne (by omega), getD_set_ne (by omega)]
      exact getD_nil16 j)
    eL2
  have hBr : hashNode wH wOpts (some [0, 0]) (some [3, 3])
      (.mk .branchNode [] [] wChildren) [] =
      ([.write [2] (List.replicate 32 1) ([234, 49, 168] ++ List.replicate 40 7)] ++
        (hashFinal wH wOpts (some [0, 0]) (some [3, 3]) [] (fullNodeEncode refs) []).2,
       .ok (.mk .hashedNode []
         (hashFinal wH wOpts (some [0, 0]) (some [3, 3]) [] (fullNodeEncode refs) []).1
         (wChildren.map (fun _ => none)))) := by
    rw [hashNode, hcs]
  have hgauge : (hashFinal wH wOpts (some [0, 0]) (some [3, 3]) []
      (fullNodeEncode refs) []).2 = [.gaugeInc] := by
    rw [hashFinal]
    rw [if_neg (by simp)]
    dsimp only
    rw [if_neg (by decide)]
    rw [if_pos (show wOpts.skipLeftBoundary = true ∧
      List.isPrefixOf ([] : List Nat) (optBytes (some [0, 0])) = true from ⟨rfl, rfl⟩)]
    rw [if_pos (show wOpts.hasGauge = true from rfl)]
  have hm3 : (HashT wH wTrieB).1 =
      [.write [2] (List.replicate 32 1) ([234, 49, 168] ++ List.replicate 40 7), .gaugeInc] := by
    rw [HashT]
    rw [show wTrieB.options = wOpts from rfl, show wTrieB.first = some [0, 0] from rfl,
      show wTrieB.last = some [3, 3] from rfl,
      show wTrieB.root = .mk .branchNode [] [] wChildren from rfl]
    rw [hBr]
    dsimp only
    rw [hgauge]
    rfl
  have he1 : Emission.write [1] (List.replicate 32 1)
      ([236, 130, 32, 35, 168] ++ List.replicate 40 7)
      ∈ (hashNode wH wOpts (some [0, 0]) (some [3, 3]) (newLeaf [2, 3] wVal) [1]).1 := by
    rw [hm1]
    exact List.mem_singleton.mpr rfl
  have he2 : Emission.write [2] (List.replicate 32 1)
      ([234, 49, 168] ++ List.replicate 40 7) ∈ (TryUpdate wH wTrieA [49] wVal).1 := by
    rw [hm2]
    exact List.mem_singleton.mpr rfl
  have he3 : Emission.write [2] (List.replicate 32 1)
      ([234, 49, 168] ++ List.replicate 40 7) ∈ (HashT wH wTrieB).1 := by
    rw [hm3]
    exact List.mem_cons_self _ _
  refine ⟨⟨he1, ?_⟩, ?_, ⟨he2, ?_⟩, ?_, ⟨he3, ?_⟩, ?_, ?_, ?_⟩
  · exact claim_C4_boundary_skipping.1 wH wOpts (some [0, 0]) (some [3, 3])
      (newLeaf [2, 3] wVal) [1] [1] (List.replicate 32 1)
      ([236, 130, 32, 35, 168] ++ List.replicate 40 7) rfl he1
  · exact claim_C4_boundary_skipping.2.1 wH wOpts (some [0, 0]) (some [3, 3])
      (newLeaf [2, 3] wVal) [1] [1] (List.replicate 32 1)
      ([236, 130, 32, 35, 168] ++ List.replicate 40 7) rfl he1
  · exact claim_C4_boundary_skipping.2.2.1 wH wTrieA [49] wVal [2]
      (List.replicate 32 1) ([234, 49, 168] ++ List.replicate 40 7) rfl he2
  · exact claim_C4_boundary_skipping.2.2.2.1 wH wTrieA [49] wVal [2]
      (List.replicate 32 1) ([234, 49, 168] ++ List.replicate 40 7) rfl he2
  · exact claim_C4_boundary_skipping.2.2.2.2.1 wH wTrieB [2]
      (List.replicate 32 1) ([234, 49, 168] ++ List.replicate 40 7) rfl he3
  · exact claim_C4_boundary_skipping.2.2.2.2.2.1 wH wTrieB [2]
      (List.replicate 32 1) ([234, 49, 168] ++ List.replicate 40 7) rfl he3
  · exact claim_C4_boundary_skipping.2.2.2.2.2.2.1 wH wOpts (some [0, 0]) (some [3, 3])
      [0] (List.replicate 40 7) [] (by decide) rfl rfl (by decide) rfl
  · exact claim_C4_boundary_skipping.2.2.2.2.2.2.2 wH wOptsR (some [0, 0]) (some [0, 1])
      [0, 1] (List.replicate 40 7) [] (by decide) rfl (by decide) rfl (by decide) rfl

/-- C5: when `hash` processes an extension node at path `p` whose child
hashed to a digest of at least 32 bytes (not inline), with a cleaner and a
writer configured and the node not skipped by a boundary rule, the cleaner
is invoked exactly once for each dangling path `p ++ key[..i]`,
`i ∈ 1..len(key)-1` (in that order), and all of these cleaner calls precede
the writer call for `p` in the emission stream. -/
theorem claim_C5_extension_cleanup
    (H : List Nat → List Nat) (o : StackTrieOptions)
    (first last : Option (List Nat)) (key val : List Nat) (c : StNode)
    (restCs : List (Option StNode)) (path : List Nat)
    (emc : List Emission) (c' : StNode)
    (hchild : hashNode H o first last c (path ++ key) = (emc, .ok c'))
    (h32 : 32 ≤ c'.val.length)
    (hclean : o.hasCleaner = true)
    (hwrite : o.hasWriter = true)
    (hL : ¬(o.skipLeftBoundary = true ∧ List.isPrefixOf path (optBytes first) = true))
    (hR : ¬(o.skipRightBoundary = true ∧ List.isPrefixOf path (optBytes last) = true)) :
    ∃ v blob : List Nat,
      hashNode H o first last (.mk .extNode key val (some c :: restCs)) path =
        (emc ++
          ((List.range' 1 (key.length - 1)).map
            (fun i => Emission.clean (path ++ key.take i))) ++
          [Emission.write path (bytesToHash v) blob],
         .ok (.mk .hashedNode [] v ((some c :: restCs).set 0 none))) := by
  rw [hashNode]
  rw [hchild]
  dsimp only
  rw [if_pos (⟨h32, hclean⟩ :
    32 ≤ c'.val.length ∧ o.hasCleaner = true)]
  rw [if_neg (show ¬c'.val.length < 32 by omega)]
  have hblob : 32 ≤ (shortNodeEncode (hexToCompact key) (NodeRef.hashRef c'.val)).length := by
    rw [shortNodeEncode]
    simp only [NodeRef.encode]
    have h1 := length_rlpListPayload_ge (rlpString (hexToCompact key) ++
      rlpString c'.val)
    have h2 := length_rlpString_ge c'.val
    simp only [List.length_append] at h1
    omega
  rw [hashFinal]
  rw [if_neg (show ¬((shortNodeEncode (hexToCompact key) (NodeRef.hashRef c'.val)).length < 32
    ∧ path ≠ []) by omega)]
  dsimp only
  rw [if_neg (show ¬o.hasWriter = false by rw [hwrite]; simp)]
  rw [if_neg hL, if_neg hR]
  refine ⟨H (shortNodeEncode (hexToCompact key) (NodeRef.hashRef c'.val)),
    shortNodeEncode (hexToCompact key) (NodeRef.hashRef c'.val), ?_⟩
  dsimp only
  rw [List.map_map, List.append_assoc]
  rfl

/-- Witness for C5 at a concrete input: an extension node with nibble chunk
`[1,2]` over an already-hashed 32-byte child, hashed at path `[0]` with
writer and cleaner configured, emits `clean [0,1]` and then the write for
`[0]`. -/
theorem claim_C5_witness :
    hashNode wH ⟨true, true, false, false, false⟩ none none
        (.mk .hashedNode [] (List.replicate 32 9) nil16) ([0] ++ [1, 2]) =
      ([], .ok (.mk .hashedNode [] (List.replicate 32 9) nil16)) ∧
    (32 ≤ (List.replicate 32 9).length ∧
      (⟨true, true, false, false, false⟩ : StackTrieOptions).hasCleaner = true) ∧
    ∃ v blob : List Nat,
      hashNode wH ⟨true, true, false, false, false⟩ none none
          (.mk .extNode [1, 2] []
            (some (.mk .hashedNode [] (List.replicate 32 9) nil16) :: nil16.tail)) [0] =
        ([] ++
          ((List.range' 1 ([1, 2].length - 1)).map
            (fun i => Emission.clean ([0] ++ [1, 2].take i))) ++
          [Emission.write [0] (bytesToHash v) blob],
         .ok (.mk .hashedNode [] v
           ((some (.mk .hashedNode [] (List.replicate 32 9) nil16) :: nil16.tail).set 0 none))) := by
  have h1 : hashNode wH ⟨true, true, false, false, false⟩ none none
      (.mk .hashedNode [] (List.replicate 32 9) nil16) ([0] ++ [1, 2]) =
      ([], .ok (.mk .hashedNode [] (List.replicate 32 9) nil16)) := by
    rw [hashNode]
  refine ⟨h1, ⟨by simp, rfl⟩, ?_⟩
  exact claim_C5_extension_cleanup wH ⟨true, true, false, false, false⟩ none none
    [1, 2] [] (.mk .hashedNode [] (List.replicate 32 9) nil16) nil16.tail [0] []
    (.mk .hashedNode [] (List.replicate 32 9) nil16) h1 (by simp [StNode.val]) rfl rfl
    (by simp) (by simp)

/-- C7: calling `TryUpdate` (the synchronous-error form of `Update`) with an
empty value signals `DeletionUnsupported` with no sink emission; the check
precedes every state change, so the trie's node structure is untouched. -/
theorem claim_C7_empty_value_deletion (H : List Nat → List Nat) (t : STrie)
    (key : List Nat) :
    TryUpdate H t key [] = ([], .error .deletionNotSupported) := by
  rw [TryUpdate]
  rfl

/-- C9: hashing is idempotent: if `Hash()` succeeds with digest `h`, calling
it again returns the same digest, performs no emission, and leaves the trie
unchanged (hashing an already-`Hashed` root is a no-op). -/
theorem claim_C9_hash_idempotent (H : List Nat → List Nat) (t t1 : STrie)
    (em : List Emission) (dig : List Nat)
    (h : HashT H t = (em, .ok (t1, dig))) :
    HashT H t1 = ([], .ok (t1, dig)) := by
  rw [HashT] at h
  rcases hr : hashNode H t.options t.first t.last t.root [] with ⟨em0, r0⟩
  rw [hr] at h
  cases r0 with
  | error e => simp at h
  | ok root' =>
    simp only [Prod.mk.injEq, Except.ok.injEq, Prod.mk.injEq] at h
    obtain ⟨hem, ht1, hdig⟩ := h
    have htyp : root'.typ = .hashedNode := hashNode_ok_typ hr
    rw [HashT, ← ht1]
    have : (⟨t.options, root', t.first, t.last⟩ : STrie).root = root' := rfl
    rw [this, hashNode_hashed htyp]
    simp [← hdig]

/-- Witness for C9 at a concrete input: hashing the empty trie twice. -/
theorem claim_C9_witness :
    HashT (fun _ => List.replicate 32 0)
        (⟨⟨false, false, false, false, false⟩,
          .mk .hashedNode [] emptyRoot nil16, none, none⟩ : STrie) =
      ([], .ok (⟨⟨false, false, false, false, false⟩,
          .mk .hashedNode [] emptyRoot nil16, none, none⟩, emptyRoot)) := by
  exact claim_C9_hash_idempotent (fun _ => List.replicate 32 0)
    (newStackTrie ⟨false, false, false, false, false⟩) _ _ _
    (claim_C1_empty_trie_hash (fun _ => List.replicate 32 0)
      ⟨false, false, false, false, false⟩).1

/-- C10: `TryUpdate` either aborts via a Go panic (modelled as an `Except`
error: empty value, duplicate key, insertion into a hashed node, or a runtime
panic) or returns the Go error `nil`; it never returns a non-nil error, so
the error-logging branch in `Update` never runs. -/
theorem claim_C10_tryupdate_never_errors :
    (∀ (H : List Nat → List Nat) (t : STrie) (key value : List Nat)
        (em : List Emission) (pr : STrie × Option StErr),
      TryUpdate H t key value = (em, .ok pr) → pr.2 = none) ∧
    (∀ (H : List Nat → List Nat) (t : STrie) (key value : List Nat)
        (em : List Emission) (qr : STrie × Bool),
      Update H t key value = (em, .ok qr) → qr.2 = false) := by
  have h1 : ∀ (H : List Nat → List Nat) (t : STrie) (key value : List Nat)
      (em : List Emission) (pr : STrie × Option StErr),
      TryUpdate H t key value = (em, .ok pr) → pr.2 = none := by
    intro H t key value em pr h
    rw [TryUpdate] at h
    split at h
    · simp at h
    · split at h <;>
      · dsimp only at h
        split at h
        · simp at h
        · simp only [Prod.mk.injEq, Except.ok.injEq] at h
          rw [← h.2]
  refine ⟨h1, ?_⟩
  intro H t key value em qr h
  rw [Update] at h
  rcases hr : TryUpdate H t key value with ⟨em0, r0⟩
  rw [hr] at h
  cases r0 with
  | error e => simp at h
  | ok pr =>
    simp only [Prod.mk.injEq, Except.ok.injEq] at h
    have := h1 H t key value em0 pr hr
    rw [← h.2, this]
    rfl

/-- Witness for C10 at a concrete input: a successful single-key update
returns the Go error `nil` and does not run the logging branch. -/
theorem claim_C10_witness :
    (TryUpdate (fun _ => List.replicate 32 0)
        (newStackTrie ⟨false, false, false, false, false⟩) [16] [1]).2.map
        (fun pr => pr.2) = .ok none ∧
    (Update (fun _ => List.replicate 32 0)
        (newStackTrie ⟨false, false, false, false, false⟩) [16] [1]).2.map
        (fun qr => qr.2) = .ok false := by
  have e1 : TryUpdate (fun _ => List.replicate 32 0)
      (newStackTrie ⟨false, false, false, false, false⟩) [16] [1] =
      ([], .ok (⟨⟨false, false, false, false, false⟩,
        .mk .leafNode [1, 0] [1] nil16, some [1, 0], some [1, 0]⟩, none)) := by
    rw [TryUpdate]
    simp only [List.length_cons]
    rw [show (newStackTrie ⟨false, false, false, false, false⟩).root = emptyStNode from rfl,
      emptyStNode, insert]
    rfl
  constructor
  · rw [e1]
    exact congrArg Except.ok (claim_C10_tryupdate_never_errors.1
      (fun _ => List.replicate 32 0)
      (newStackTrie ⟨false, false, false, false, false⟩) [16] [1] _ _ e1)
  · have e2 : Update (fun _ => List.replicate 32 0)
        (newStackTrie ⟨false, false, false, false, false⟩) [16] [1] =
        ([], .ok (⟨⟨false, false, false, false, false⟩,
          .mk .leafNode [1, 0] [1] nil16, some [1, 0], some [1, 0]⟩, false)) := by
      rw [Update, e1]
      rfl
    rw [e2]
    exact congrArg Except.ok (claim_C10_tryupdate_never_errors.2
      (fun _ => List.replicate 32 0)
      (newStackTrie ⟨false, false, false, false, false⟩) [16] [1] _ _ e2)

/-- C2: for every sequence of `Update` calls with strictly increasing keys
(in the proper-divergence form `nibDiv`: consecutive byte keys differ at an
index inside both — a later key that merely extends an earlier one makes the
`Update` fail with a duplicate-key panic instead, leaving no state to check)
and non-empty values, the whole run succeeds, and after each successful
`Update` — this theorem applied to each prefix of the sequence, in
particular the full one — the non-`Hashed` nodes form a single spine from
the root down to the position of the most recently inserted key: every
existing sibling strictly left of the spine is `Hashed`, and no sibling to
the right of it exists (the `Spine` invariant). -/
theorem claim_C2_spine_invariant
    (H : List Nat → List Nat) (o : StackTrieOptions)
    (p0 : List Nat × List Nat) (rest : List (List Nat × List Nat))
    (hb : ∀ p ∈ p0 :: rest, ∀ x ∈ p.1, x < 256)
    (hv : ∀ p ∈ p0 :: rest, p.2 ≠ [])
    (hinc : List.Chain' nibDiv ((p0 :: rest).map Prod.fst)) :
    ∃ em t', runUpdates H (newStackTrie o) (p0 :: rest) = (em, .ok t') ∧
      Spine t'.root (((p0 :: rest).map (fun p => keyNibbles p.1)).getLastD []) := by
  have hchain := chain_nibDiv_keyNibbles (p0 :: rest) hb hinc
  obtain ⟨em1, t1, htu, hsp1⟩ := TryUpdate_spine_base H
    (show (newStackTrie o).root = emptyStNode from rfl)
    (hb p0 (List.mem_cons_self _ _)) (hv p0 (List.mem_cons_self _ _))
  rw [List.map_cons] at hchain
  obtain ⟨em2, t2, hrun, hsp2⟩ := runUpdates_spine H rest t1 (keyNibbles p0.1)
    hsp1 (fun q hq => hb q (List.mem_cons_of_mem _ hq))
    (fun q hq => hv q (List.mem_cons_of_mem _ hq)) hchain
  refine ⟨em1 ++ em2, t2, ?_, ?_⟩
  · rw [runUpdates]
    rw [htu]
    dsimp only
    rw [hrun]
  · rw [List.map_cons, List.getLastD_cons]
    exact hsp2

/-- Witness for C2 at a concrete input: the two-key run `0x10 → [1]`,
`0x12 → [2]` of the spec's scenario 3 satisfies all hypotheses and so
succeeds with the spine invariant at the last key. -/
theorem claim_C2_witness :
    (∀ p ∈ [([0x10], [1]), ([0x12], [2])], ∀ x ∈ (p : List Nat × List Nat).1, x < 256) ∧
    (∀ p ∈ [([0x10], [1]), ([0x12], [2])], (p : List Nat × List Nat).2 ≠ []) ∧
    List.Chain' nibDiv ([([0x10], [1]), ([0x12], [2])].map Prod.fst) ∧
    ∃ em t', runUpdates wH (newStackTrie wOpts)
        [(([0x10] : List Nat), ([1] : List Nat)), ([0x12], [2])] = (em, .ok t') ∧
      Spine t'.root (([([0x10], [1]), ([0x12], [2])].map
        (fun p => keyNibbles (p : List Nat × List Nat).1)).getLastD []) := by
  have hb : ∀ p ∈ [(([0x10] : List Nat), ([1] : List Nat)), ([0x12], [2])],
      ∀ x ∈ p.1, x < 256 := by decide
  have hv : ∀ p ∈ [(([0x10] : List Nat), ([1] : List Nat)), ([0x12], [2])],
      p.2 ≠ [] := by decide
  have hd : nibDiv [0x10] [0x12] := ⟨0, by decide, by decide, rfl, by decide⟩
  have hinc : List.Chain' nibDiv
      ([(([0x10] : List Nat), ([1] : List Nat)), ([0x12], [2])].map Prod.fst) :=
    List.Chain.cons hd List.Chain.nil
  exact ⟨hb, hv, hinc,
    claim_C2_spine_invariant wH wOpts ([0x10], [1]) [([0x12], [2])] hb hv hinc⟩


end StackTrieModel

namespace StackTrieModel

theorem getDiffIndex_err : ∀ {a b : List Nat} {e : StErr},
    getDiffIndex a b = .error e → e = .indexOutOfRange := by
  intro a
  induction a with
  | nil => intro b e h; simp [getDiffIndex] at h
  | cons x tl ih =>
    intro b e h
    cases b with
    | nil =>
      simp [getDiffIndex] at h
      exact h.symm
    | cons y ys =>
      rw [getDiffIndex] at h
      split at h
      · rcases hg : getDiffIndex tl ys with e' | v
        · rw [hg] at h
          simp [Except.map] at h
          rw [← h]
          exact ih hg
        · rw [hg] at h
          simp [Except.map] at h
      · simp at h

theorem hashNode_err (H : List Nat → List Nat) (o : StackTrieOptions)
    (first last : Option (List Nat)) :
    ∀ (st : StNode) (path : List Nat) (em : List Emission) (e : StErr),
      hashNode H o first last st path = (em, .error e) → e = .nilDereference := by
  refine hashNode.induct H o first last
    (fun st path => ∀ em e, hashNode H o first last st path = (em, .error e) →
      e = .nilDereference)
    (fun cs path i => ∀ em e, hashChildren H o first last cs path i = (em, .error e) →
      e = .nilDereference)
    ?_ ?_ ?_ ?_ ?_ ?_ ?_ ?_ ?_ ?_ ?_ ?_ ?_ ?_ ?_
  · intro path key val children em e h
    rw [hashNode] at h
    simp at h
  · intro path key val children em e h
    rw [hashNode] at h
    simp at h
  · intro path key val children em' err hch ih em e h
    rw [hashNode] at h
    simp only [hch] at h
    simp only [Prod.mk.injEq, Except.error.injEq] at h
    rw [← h.2]
    exact ih em' err hch
  · intro path key val children em' refs hch ih em e h
    rw [hashNode] at h
    simp only [hch] at h
    simp at h
  · intro path key val em e h
    rw [hashNode] at h
    simp only [Prod.mk.injEq, Except.error.injEq] at h
    exact h.2.symm
  · intro path key val tail em e h
    rw [hashNode] at h
    simp only [Prod.mk.injEq, Except.error.injEq] at h
    exact h.2.symm
  · intro path key val c restCs em' err hcn ih em e h
    rw [hashNode] at h
    simp only [hcn] at h
    simp only [Prod.mk.injEq, Except.error.injEq] at h
    rw [← h.2]
    exact ih em' err hcn
  · intro path key val c restCs em' c' hcn ih em e h
    rw [hashNode] at h
    simp only [hcn] at h
    simp at h
  · intro path key val children em e h
    rw [hashNode] at h
    simp at h
  · intro path i em e h
    rw [hashChildren] at h
    simp at h
  · intro path i rest em' err hrest ih em e h
    rw [hashChildren] at h
    simp only [hrest] at h
    simp only [Prod.mk.injEq, Except.error.injEq] at h
    rw [← h.2]
    exact ih em' err hrest
  · intro path i rest em' refs hrest ih em e h
    rw [hashChildren] at h
    simp only [hrest] at h
    simp at h
  · intro path i c rest em' err hcn ih em e h
    rw [hashChildren] at h
    simp only [hcn] at h
    simp only [Prod.mk.injEq, Except.error.injEq] at h
    rw [← h.2]
    exact ih em' err hcn
  · intro path i c rest em' c' hcn em2 err hrest ih ih2 em e h
    rw [hashChildren] at h
    simp only [hcn, hrest] at h
    simp only [Prod.mk.injEq, Except.error.injEq] at h
    rw [← h.2]
    exact ih2 em2 err hrest
  · intro path i c rest em' c' hcn em2 refs hrest ih ih2 em e h
    rw [hashChildren] at h
    simp only [hcn, hrest] at h
    simp at h

theorem elderHash_err {H : List Nat → List Nat} {o : StackTrieOptions}
    {first last : Option (List Nat)} {children : List (Option StNode)}
    {idx : Nat} {path : List Nat} {em : List Emission} {e : StErr}
    (h : elderHash H o first last children idx path = (em, .error e)) :
    e = .nilDereference := by
  rw [elderHash] at h
  split at h
  · simp at h
  · split at h
    · simp at h
    · split at h
      · simp at h
      · split at h
        · rename_i hh
          simp only [Prod.mk.injEq, Except.error.injEq] at h
          rw [← h.2]
          exact hashNode_err H o first last _ _ _ _ hh
        · simp at h

theorem extTailHash_err {H : List Nat → List Nat} {o : StackTrieOptions}
    {first last : Option (List Nat)} {children : List (Option StNode)}
    {nkey : List Nat} {diffidx : Nat} {path : List Nat}
    {em : List Emission} {e : StErr}
    (h : extTailHash H o first last children nkey diffidx path = (em, .error e)) :
    e = .nilDereference := by
  rw [extTailHash] at h
  split at h
  · exact hashNode_err H o first last _ _ _ _ h
  · split at h
    · simp only [Prod.mk.injEq, Except.error.injEq] at h
      exact h.2.symm
    · exact hashNode_err H o first last _ _ _ _ h

end StackTrieModel
namespace StackTrieModel

/-- A duplicate-key panic in `insert` always originates in the `leafNode`
arm, at a leaf whose key chunk is exhausted by the search key. -/
theorem insert_dup_origin (H : List Nat → List Nat) (o : StackTrieOptions)
    (first last : Option (List Nat)) :
    ∀ (st : StNode) (key value path : List Nat) (em : List Emission),
      insert H o first last st key value path = (em, .error .duplicateKey) →
      ∃ (nkey nval : List Nat) (children : List (Option StNode))
        (key' path' : List Nat) (d : Nat),
        insert H o first last (.mk .leafNode nkey nval children) key' value path' =
          ([], .error .duplicateKey) ∧
        getDiffIndex nkey key' = .ok d ∧ nkey.length ≤ d := by
  intro st key value path
  induction st, key, value, path using insert.induct H o first last with
  | case1 value path key val children =>
    intro em h
    rw [insert] at h
    simp at h
  | case2 value path key val children idx krest h15 =>
    intro em h
    rw [insert.eq_def] at h
    dsimp only at h
    rw [dif_pos h15] at h
    simp at h
  | case3 value path key val children idx krest h15 em' err helder =>
    intro em h
    rw [insert.eq_def] at h
    dsimp only at h
    rw [dif_neg h15, helder] at h
    simp only [Prod.mk.injEq, Except.error.injEq] at h
    have := elderHash_err helder
    rw [h.2] at this
    cases this
  | case4 value path key val children idx krest h15 em' cs' helder hch =>
    intro em h
    rw [insert.eq_def] at h
    dsimp only at h
    rw [dif_neg h15] at h
    simp only [helder] at h
    split at h
    · simp at h
    · rename_i child' heq'
      rw [hch] at heq'
      cases heq'
  | case5 value path key val children idx krest h15 em' cs' helder child hch em2 err hins ih =>
    intro em h
    rw [insert.eq_def] at h
    dsimp only at h
    rw [dif_neg h15] at h
    simp only [helder] at h
    split at h
    · simp_all
    · rename_i child' heq'
      rw [hch] at heq'
      injection heq' with hcc
      subst hcc
      simp only [hins] at h
      simp only [Prod.mk.injEq, Except.error.injEq] at h
      rw [h.2] at hins
      exact ih em2 hins
  | case6 value path key val children idx krest h15 em' cs' helder child hch em2 c' hins ih =>
    intro em h
    rw [insert.eq_def] at h
    dsimp only at h
    rw [dif_neg h15] at h
    simp only [helder] at h
    split at h
    · simp_all
    · rename_i child' heq'
      rw [hch] at heq'
      injection heq' with hcc
      subst hcc
      simp only [hins] at h
      simp at h
  | case7 key value path nkey val children err hgd =>
    intro em h
    rw [insert.eq_def] at h
    dsimp only at h
    rw [hgd] at h
    simp only [Prod.mk.injEq, Except.error.injEq] at h
    have := getDiffIndex_err hgd
    rw [h.2] at this
    cases this
  | case8 key value path nkey val children hch hgd =>
    intro em h
    rw [insert.eq_def] at h
    dsimp only at h
    simp only [hgd] at h
    rw [dif_pos trivial] at h
    split at h
    · simp at h
    · rename_i child' heq'
      rw [hch] at heq'
      cases heq'
  | case9 key value path nkey val children child hch em' err hgd hins ih =>
    intro em h
    rw [insert.eq_def] at h
    dsimp only at h
    simp only [hgd] at h
    rw [dif_pos trivial] at h
    split at h
    · simp_all
    · rename_i child' heq'
      rw [hch] at heq'
      injection heq' with hcc
      subst hcc
      simp only [hins] at h
      simp only [Prod.mk.injEq, Except.error.injEq] at h
      rw [h.2] at hins
      exact ih em' hins
  | case10 key value path nkey val children child hch em' c' hgd hins ih =>
    intro em h
    rw [insert.eq_def] at h
    dsimp only at h
    simp only [hgd] at h
    rw [dif_pos trivial] at h
    split at h
    · simp_all
    · rename_i child' heq'
      rw [hch] at heq'
      injection heq' with hcc
      subst hcc
      simp only [hins] at h
      simp at h
  | case11 key value path nkey val children diffidx hgd hne em' err htail =>
    intro em h
    rw [insert.eq_def] at h
    dsimp only at h
    rw [hgd] at h
    dsimp only at h
    rw [dif_neg hne, htail] at h
    simp only [Prod.mk.injEq, Except.error.injEq] at h
    have := extTailHash_err htail
    rw [h.2] at this
    cases this
  | case12 key value path nkey val children diffidx hgd hne em' c' htail origIdx newIdx hbound =>
    intro em h
    rw [insert.eq_def] at h
    dsimp only at h
    simp only [hgd] at h
    rw [dif_neg hne] at h
    simp only [htail] at h
    split at h
    all_goals first
      | simp at h
      | (split at h <;> simp at h)
      | (rename_i hc; first | exact absurd hbound hc | exact absurd hc hbound)
  | case13 key value path nkey val children em' c' hgd hne htail origIdx newIdx hbound =>
    intro em h
    rw [insert.eq_def] at h
    dsimp only at h
    simp only [hgd] at h
    rw [dif_neg hne] at h
    simp only [htail] at h
    split at h
    all_goals first
      | simp at h
      | (split at h <;> simp at h)
      | (rename_i hc; first | exact absurd hbound hc | exact absurd hc hbound)
  | case14 key value path nkey val children diffidx hgd hne em' c' htail origIdx newIdx hbound hdne =>
    intro em h
    rw [insert.eq_def] at h
    dsimp only at h
    simp only [hgd] at h
    rw [dif_neg hne] at h
    simp only [htail] at h
    split at h
    all_goals first
      | simp at h
      | (split at h <;> simp at h)
      | (rename_i hc; first | exact absurd hbound hc | exact absurd hc hbound)
  | case15 key value path nkey val children err hgd =>
    intro em h
    rw [insert.eq_def] at h
    dsimp only at h
    rw [hgd] at h
    simp only [Prod.mk.injEq, Except.error.injEq] at h
    have := getDiffIndex_err hgd
    rw [h.2] at this
    cases this
  | case16 key value path nkey val children diffidx hgd hdup =>
    intro em h
    refine ⟨nkey, val, children, key, path, diffidx, ?_, hgd, hdup⟩
    rw [insert.eq_def]
    dsimp only
    rw [hgd]
    dsimp only
    rw [if_pos hdup]
  | case17 key value path nkey val children diffidx hgd hdup origIdx newIdx hbound =>
    intro em h
    rw [insert.eq_def] at h
    dsimp only at h
    rw [hgd] at h
    dsimp only at h
    rw [if_neg hdup] at h
    split at h
    · simp at h
    · rename_i hcond
      exact absurd hbound hcond
  | case18 key value path nkey val children diffidx hgd hdup origIdx newIdx hbound em' err hhash =>
    intro em h
    rw [insert.eq_def] at h
    dsimp only at h
    rw [hgd] at h
    dsimp only at h
    rw [if_neg hdup] at h
    split at h
    · simp at h
    · rw [hhash] at h
      simp only [Prod.mk.injEq, Except.error.injEq] at h
      have := hashNode_err H o first last _ _ _ _ hhash
      rw [h.2] at this
      cases this
  | case19 key value path nkey val children em' c' hgd hdup origIdx newIdx hbound hhash =>
    intro em h
    rw [insert.eq_def] at h
    dsimp only at h
    rw [hgd] at h
    dsimp only at h
    rw [if_neg hdup] at h
    split at h
    · simp at h
    · rw [hhash] at h
      first
      | simp at h
      | (split at h <;> simp at h)
  | case20 key value path nkey val children diffidx hgd hdup origIdx newIdx hbound em' c' hhash hdne =>
    intro em h
    rw [insert.eq_def] at h
    dsimp only at h
    rw [hgd] at h
    dsimp only at h
    rw [if_neg hdup] at h
    split at h
    · simp at h
    · rw [hhash] at h
      first
      | simp at h
      | (split at h <;> simp at h)
  | case21 key value path nkey val children =>
    intro em h
    rw [insert] at h
    simp at h
  | case22 key value path nkey val children =>
    intro em h
    rw [insert] at h
    simp at h

end StackTrieModel
namespace StackTrieModel

/-- At a leaf node, `insert` panics with `duplicateKey` exactly when the
diff index covers the leaf's whole key chunk (lines 296-298 of
stacktrie.go): `d >= len(st.key)`. -/
theorem insert_leaf_dup_iff (H : List Nat → List Nat) (o : StackTrieOptions)
    (first last : Option (List Nat)) (nkey nval : List Nat)
    (cs : List (Option StNode)) (key value path : List Nat) :
    (insert H o first last (.mk .leafNode nkey nval cs) key value path).2 =
      .error .duplicateKey ↔
    ∃ d, getDiffIndex nkey key = .ok d ∧ nkey.length ≤ d := by
  rw [insert.eq_def]
  dsimp only
  rcases hgd : getDiffIndex nkey key with e | d
  · dsimp only
    constructor
    · intro h
      exfalso
      injection h with he
      have hidx := getDiffIndex_err hgd
      rw [he] at hidx
      cases hidx
    · rintro ⟨d, hd, -⟩
      cases hd
  · dsimp only
    by_cases hle : nkey.length ≤ d
    · rw [if_pos hle]
      exact ⟨fun _ => ⟨d, rfl, hle⟩, fun _ => rfl⟩
    · rw [if_neg hle]
      constructor
      · intro h
        exfalso
        split at h
        · cases h
        · split at h
          · rename_i em' e' hhash
            injection h with he
            have hnil := hashNode_err H o first last _ _ _ _ hhash
            rw [he] at hnil
            cases hnil
          · rename_i em' n' hhash
            split at h <;> cases h
      · rintro ⟨d', hd', hle'⟩
        injection hd' with hdd
        subst hdd
        exact absurd hle' hle

/-- Re-inserting the very key the spine already ends in panics with
`duplicateKey`, emitting nothing: the search walks the spine without
hashing any elder sibling and hits the duplicate test at the final leaf. -/
theorem insert_spine_dup (H : List Nat → List Nat) (o : StackTrieOptions)
    (first last : Option (List Nat)) {st : StNode} {r : List Nat}
    (hsp : Spine st r) :
    ∀ (value path : List Nat),
      insert H o first last st r value path = ([], .error .duplicateKey) := by
  induction hsp with
  | leaf key val hval =>
    intro value path
    rw [insert.eq_def]
    dsimp only
    rw [show getDiffIndex key key = Except.ok key.length from by
      have h0 := getDiffIndex_append key []
      simpa using h0]
    dsimp only
    rw [if_pos (Nat.le_refl _)]
  | branch bval cs idx r' child hidx hlen hchild helder hright hspine ih =>
    intro value path
    have helderEq : elderHash H o first last cs idx path = ([], .ok cs) := by
      rw [elderHash]
      by_cases hi0 : idx = 0
      · rw [if_pos hi0]
      · rw [if_neg hi0]
        rcases scanElder_elders (idx - 1) (fun k hk => helder k (by omega))
          with hrs | ⟨i, c, hrs, hctyp⟩
        · rw [hrs]
        · rw [hrs]
          dsimp only
          rw [if_pos hctyp]
    rw [insert.eq_def]
    dsimp only
    rw [dif_neg (show ¬15 < idx by omega)]
    rw [helderEq]
    dsimp only
    split
    · rename_i heq
      rw [hchild] at heq
      cases heq
    · rename_i child'' heq
      rw [hchild] at heq
      injection heq with hcc
      subst hcc
      rw [ih value (path ++ [idx])]
      rfl
  | ext ekey eval child r'' hkey hval hspinech ih =>
    intro value path
    have hcs0 : (nil16.set 0 (some child)).getD 0 none = some child := rfl
    rw [insert.eq_def]
    dsimp only
    rw [getDiffIndex_append ekey r'']
    dsimp only
    rw [dif_pos rfl]
    split
    · rename_i heq
      rw [hcs0] at heq
      cases heq
    · rename_i child'' heq
      rw [hcs0] at heq
      injection heq with hcc
      subst hcc
      rw [List.drop_left, take_append_left (le_refl _), List.take_length]
      rw [ih value (path ++ ekey)]

end StackTrieModel

namespace StackTrieModel

/-- C6: a `duplicateKey` panic happens exactly at a leaf whose key chunk is
exhausted by the search key. (i) At a leaf, `insert` fails with
`duplicateKey` iff the diff index `d` of lines 296-298 satisfies
`len(st.key) <= d`; (ii) every `duplicateKey` failure of `insert`
originates at such a leaf; (iii) in particular, updating a trie whose
spine already holds exactly the new key's nibbles — as it does right after
that same key was inserted — fails with `duplicateKey`, and the failing
call performs no writer emission. -/
theorem claim_C6_duplicate_key (H : List Nat → List Nat) (o : StackTrieOptions)
    (first last : Option (List Nat)) :
    (∀ (nkey nval : List Nat) (cs : List (Option StNode))
       (key value path : List Nat),
       (insert H o first last (.mk .leafNode nkey nval cs) key value path).2 =
         .error .duplicateKey ↔
       ∃ d, getDiffIndex nkey key = .ok d ∧ nkey.length ≤ d) ∧
    (∀ (st : StNode) (key value path : List Nat) (em : List Emission),
       insert H o first last st key value path = (em, .error .duplicateKey) →
       ∃ (nkey nval : List Nat) (children : List (Option StNode))
         (key' path' : List Nat) (d : Nat),
         insert H o first last (.mk .leafNode nkey nval children) key' value path' =
           ([], .error .duplicateKey) ∧
         getDiffIndex nkey key' = .ok d ∧ nkey.length ≤ d) ∧
    (∀ (t : STrie) (key value : List Nat),
       Spine t.root (keyNibbles key) → value ≠ [] →
       Update H t key value = ([], .error .duplicateKey)) := by
  refine ⟨insert_leaf_dup_iff H o first last,
    insert_dup_origin H o first last, ?_⟩
  intro t key value hsp hv
  have hvlen : ¬(value.length = 0) := fun h => hv (List.length_eq_zero.mp h)
  have htu : TryUpdate H t key value = ([], .error .duplicateKey) := by
    rcases hf : t.first with - | f
    · rw [TryUpdate]
      rw [if_neg hvlen]
      dsimp only
      rw [hf]
      dsimp only
      rw [show (keybytesToHex key).dropLast = keyNibbles key from rfl]
      rw [insert_spine_dup H t.options (some (keyNibbles key))
        (some (keyNibbles key)) hsp value []]
    · rw [TryUpdate]
      rw [if_neg hvlen]
      dsimp only
      rw [hf]
      dsimp only
      rw [show (keybytesToHex key).dropLast = keyNibbles key from rfl]
      rw [insert_spine_dup H t.options (some f)
        (some (keyNibbles key)) hsp value []]
  simp only [Update, htu]

/-- Witness for C6: updating key `0x01` on a trie whose spine is exactly
that key's nibble path fails with `duplicateKey` and emits nothing. -/
theorem claim_C6_witness :
    Update wH ⟨wOpts, .mk .leafNode [0, 1] [7] nil16, some [0, 1], some [0, 1]⟩
        [1] [5] = ([], .error .duplicateKey) :=
  (claim_C6_duplicate_key wH wOpts none none).2.2
    ⟨wOpts, .mk .leafNode [0, 1] [7] nil16, some [0, 1], some [0, 1]⟩ [1] [5]
    (by exact Spine.leaf [0, 1] [7] (by decide))
    (by decide)

end StackTrieModel

namespace StackTrieModel

/-! ### Write paths and write keys of an emission log -/

/-- The paths of the writer calls in an emission log. -/
def writePaths (em : List Emission) : List (List Nat) :=
  em.filterMap fun e => match e with
    | .write p _ _ => some p
    | _ => none

/-- The `(path, hash)` pairs of the writer calls in an emission log. -/
def writeKeys (em : List Emission) : List (List Nat × List Nat) :=
  em.filterMap fun e => match e with
    | .write p h _ => some (p, h)
    | _ => none

theorem writePaths_append (a b : List Emission) :
    writePaths (a ++ b) = writePaths a ++ writePaths b := by
  simp [writePaths]

theorem writeKeys_map_fst (em : List Emission) :
    (writeKeys em).map Prod.fst = writePaths em := by
  induction em with
  | nil => rfl
  | cons e tl ih =>
    cases e with
    | write p h b =>
      simp only [writeKeys, writePaths, List.filterMap_cons] at ih ⊢
      simpa using ih
    | clean p =>
      simp only [writeKeys, writePaths, List.filterMap_cons] at ih ⊢
      exact ih
    | gaugeInc =>
      simp only [writeKeys, writePaths, List.filterMap_cons] at ih ⊢
      exact ih

theorem writeKeys_nodup_of_writePaths {em : List Emission}
    (h : (writePaths em).Nodup) : (writeKeys em).Nodup := by
  rw [← writeKeys_map_fst] at h
  exact h.of_map Prod.fst

theorem writePaths_clean_map (l : List (List Nat)) :
    writePaths (l.map Emission.clean) = [] := by
  induction l with
  | nil => rfl
  | cons a tl ih =>
    simp only [List.map_cons, writePaths, List.filterMap_cons] at ih ⊢
    exact ih

/-- The writer emissions of a single `hashFinal` call: nothing, or one write
at exactly the node's own path. -/
theorem hashFinal_wp (H : List Nat → List Nat) (o : StackTrieOptions)
    (first last : Option (List Nat)) (path blob : List Nat)
    (internal : List (List Nat)) :
    writePaths (hashFinal H o first last path blob internal).2 = [] ∨
    writePaths (hashFinal H o first last path blob internal).2 = [path] := by
  rw [hashFinal]
  split
  · left; rfl
  · dsimp only
    split
    · left; rfl
    · split
      · split
        · left; rfl
        · left; rfl
      · split
        · split
          · left; rfl
          · left; rfl
        · right
          rw [writePaths_append, writePaths_clean_map]
          rfl

/-! ### nibDiv helpers -/

theorem getD_take {α : Type} {l : List α} {j n : Nat} {d : α} (h : j < n) :
    (l.take n).getD j d = l.getD j d := by
  induction l generalizing j n with
  | nil => simp
  | cons hd tl ih =>
    cases n with
    | zero => omega
    | succ m =>
      cases j with
      | zero => rfl
      | succ i =>
        simp only [List.take_succ_cons]
        exact ih (by omega)

theorem getD_eq_of_take_eq {x y : List Nat} {n j : Nat} {d : Nat}
    (hxy : x.take n = y.take n) (h : j < n) : x.getD j d = y.getD j d := by
  rw [← getD_take (l := x) h, hxy, getD_take h]

theorem take_eq_of_take_eq {x y : List Nat} {n j : Nat}
    (hxy : x.take n = y.take n) (h : j ≤ n) : x.take j = y.take j := by
  have h2 := congrArg (List.take j) hxy
  rw [List.take_take, List.take_take, Nat.min_eq_left h] at h2
  exact h2

/-- `nibDiv` is the strict lexicographic order on proper divergences, and is
transitive. -/
theorem nibDiv_trans {a b c : List Nat} (h1 : nibDiv a b) (h2 : nibDiv b c) :
    nibDiv a c := by
  obtain ⟨j1, ha1, hb1, ht1, hl1⟩ := h1
  obtain ⟨j2, hb2, hc2, ht2, hl2⟩ := h2
  rcases Nat.lt_trichotomy j1 j2 with h | h | h
  · refine ⟨j1, ha1, by omega, ?_, ?_⟩
    · rw [ht1]
      exact take_eq_of_take_eq ht2 (Nat.le_of_lt h)
    · have hbc := getD_eq_of_take_eq (d := 0) ht2 h
      omega
  · subst h
    exact ⟨j1, ha1, hc2, by rw [ht1, ht2], by omega⟩
  · refine ⟨j2, by omega, hc2, ?_, ?_⟩
    · rw [take_eq_of_take_eq ht1 (Nat.le_of_lt h), ht2]
    · have hab := getD_eq_of_take_eq (d := 0) ht1 h
      omega

/-- Extending both sides of a proper divergence by a common prefix. -/
theorem nibDiv_append_left (s : List Nat) {a b : List Nat} (h : nibDiv a b) :
    nibDiv (s ++ a) (s ++ b) := by
  obtain ⟨j, h1, h2, ht, hl⟩ := h
  refine ⟨s.length + j, by simp only [List.length_append]; omega,
    by simp only [List.length_append]; omega, ?_, ?_⟩
  · rw [take_append_add, take_append_add, ht]
  · rw [getD_append_right, getD_append_right]
    exact hl

theorem nibDiv_cons (x : Nat) {a b : List Nat} (h : nibDiv a b) :
    nibDiv (x :: a) (x :: b) :=
  nibDiv_append_left [x] h

/-- A path strictly left of `r` is never a prefix of `r`. -/
theorem nibDiv_ne_take {p r : List Nat} (h : nibDiv p r) (m : Nat) :
    p ≠ r.take m := by
  obtain ⟨j, h1, h2, ht, hl⟩ := h
  intro heq
  have hjm : j < m := by
    have hlen := congrArg List.length heq
    rw [List.length_take] at hlen
    omega
  have hgd : p.getD j 0 = r.getD j 0 := by
    rw [heq, getD_take hjm]
  omega

/-- A long-enough prefix of `r` inherits a divergence of `r` against `key`. -/
theorem nibDiv_take_left {r key : List Nat} {j m : Nat}
    (hjr : j < r.length) (hjk : j < key.length)
    (ht : r.take j = key.take j) (hl : r.getD j 0 < key.getD j 0)
    (hjm : j < m) : nibDiv (r.take m) key := by
  refine ⟨j, ?_, hjk, ?_, ?_⟩
  · rw [List.length_take]
    omega
  · rw [List.take_take, Nat.min_eq_left (by omega), ht]
  · rw [getD_take hjm]
    exact hl

end StackTrieModel
namespace StackTrieModel

end StackTrieModel
namespace StackTrieModel

/-- Hashing a spine node at `path` emits pairwise-distinct write paths, each
the position of a node on the spine: `path` extended by a prefix of the
spine key. -/
theorem hashNode_spine_wp (H : List Nat → List Nat) (o : StackTrieOptions)
    (first last : Option (List Nat)) {st : StNode} {r : List Nat}
    (hsp : Spine st r) :
    ∀ path : List Nat,
      (writePaths (hashNode H o first last st path).1).Nodup ∧
      ∀ q ∈ writePaths (hashNode H o first last st path).1,
        ∃ m, m ≤ r.length ∧ q = path ++ r.take m := by
  induction hsp with
  | leaf key val hval =>
    intro path
    have hEq : hashNode H o first last (.mk .leafNode key val nil16) path =
        ((hashFinal H o first last path
            (shortNodeEncode (hexToCompact (key ++ [16])) (.valueRef val)) []).2,
         .ok (.mk .hashedNode []
           (hashFinal H o first last path
             (shortNodeEncode (hexToCompact (key ++ [16])) (.valueRef val)) []).1
           nil16)) := by
      rw [hashNode]
    rw [hEq]
    dsimp only
    rcases hashFinal_wp H o first last path
        (shortNodeEncode (hexToCompact (key ++ [16])) (.valueRef val)) []
      with hw | hw
    · rw [hw]
      exact ⟨List.nodup_nil, fun q hq => absurd hq (List.not_mem_nil q)⟩
    · rw [hw]
      refine ⟨List.nodup_singleton path, ?_⟩
      intro q hq
      rw [List.mem_singleton] at hq
      subst hq
      exact ⟨0, Nat.zero_le _, by simp⟩
  | branch bval cs idx r' child hidx hlen hchild helder hright hspinech ih =>
    intro path
    obtain ⟨emc, c', hc⟩ := hashNode_ok_of_HashOK H o first last
      hspinech.hashOK (path ++ [idx])
    obtain ⟨refs, hcs⟩ := hashChildren_single H o first last cs idx child path 0
      emc c' hchild helder hright (by rw [Nat.zero_add]; exact hc)
    have hEq : hashNode H o first last (.mk .branchNode [] bval cs) path =
        (emc ++ (hashFinal H o first last path (fullNodeEncode refs) []).2,
         .ok (.mk .hashedNode []
           (hashFinal H o first last path (fullNodeEncode refs) []).1
           (cs.map (fun _ => none)))) := by
      rw [hashNode, hcs]
    rw [hEq]
    dsimp only
    rw [writePaths_append]
    obtain ⟨ihn, ihm⟩ := ih (path ++ [idx])
    rw [hc] at ihn ihm
    dsimp only at ihn ihm
    have hmem : ∀ q ∈ writePaths emc,
        ∃ m, m ≤ (idx :: r').length ∧ q = path ++ (idx :: r').take m := by
      intro q hq
      obtain ⟨m, hm, hqe⟩ := ihm q hq
      refine ⟨m + 1, by simp only [List.length_cons]; omega, ?_⟩
      rw [hqe, List.take_succ_cons]
      simp
    rcases hashFinal_wp H o first last path (fullNodeEncode refs) [] with hw | hw
    · rw [hw, List.append_nil]
      exact ⟨ihn, hmem⟩
    · rw [hw]
      refine ⟨?_, ?_⟩
      · refine List.Nodup.append ihn (List.nodup_singleton path) ?_
        intro q hq1 hq2
        rw [List.mem_singleton] at hq2
        obtain ⟨m, hm, hqe⟩ := ihm q hq1
        rw [hq2] at hqe
        have hlenq := congrArg List.length hqe
        simp only [List.length_append, List.length_cons,
          List.length_singleton] at hlenq
        omega
      · intro q hq
        rw [List.mem_append] at hq
        rcases hq with hq | hq
        · exact hmem q hq
        · rw [List.mem_singleton] at hq
          subst hq
          exact ⟨0, Nat.zero_le _, by simp⟩
  | ext key val child r'' hkey hval hspinech ih =>
    intro path
    obtain ⟨emc, c', hc⟩ := hashNode_ok_of_HashOK H o first last
      hspinech.hashOK (path ++ key)
    have hEq : hashNode H o first last
        (.mk .extNode key val (nil16.set 0 (some child))) path =
        (emc ++ (hashFinal H o first last path
            (shortNodeEncode (hexToCompact key)
              (if c'.val.length < 32 then .rawRef c'.val else .hashRef c'.val))
            (if 32 ≤ c'.val.length ∧ o.hasCleaner then
              (List.range' 1 (key.length - 1)).map (fun i => path ++ key.take i)
            else [])).2,
         .ok (.mk .hashedNode []
           (hashFinal H o first last path
             (shortNodeEncode (hexToCompact key)
               (if c'.val.length < 32 then .rawRef c'.val else .hashRef c'.val))
             (if 32 ≤ c'.val.length ∧ o.hasCleaner then
               (List.range' 1 (key.length - 1)).map (fun i => path ++ key.take i)
             else [])).1
           ((some child :: List.replicate 15 none).set 0 none))) := by
      rw [nil16_set0, hashNode, hc]
    rw [hEq]
    dsimp only
    rw [writePaths_append]
    obtain ⟨ihn, ihm⟩ := ih (path ++ key)
    rw [hc] at ihn ihm
    dsimp only at ihn ihm
    have hmem : ∀ q ∈ writePaths emc,
        ∃ m, m ≤ (key ++ r'').length ∧ q = path ++ (key ++ r'').take m := by
      intro q hq
      obtain ⟨m, hm, hqe⟩ := ihm q hq
      refine ⟨key.length + m,
        by simp only [List.length_append]; omega, ?_⟩
      rw [hqe, take_append_add, List.append_assoc]
    rcases hashFinal_wp H o first last path
        (shortNodeEncode (hexToCompact key)
          (if c'.val.length < 32 then .rawRef c'.val else .hashRef c'.val))
        (if 32 ≤ c'.val.length ∧ o.hasCleaner then
          (List.range' 1 (key.length - 1)).map (fun i => path ++ key.take i)
        else []) with hw | hw
    · rw [hw, List.append_nil]
      exact ⟨ihn, hmem⟩
    · rw [hw]
      have hkeylen : 1 ≤ key.length := by
        cases key with
        | nil => exact absurd rfl hkey
        | cons a tl => simp
      refine ⟨?_, ?_⟩
      · refine List.Nodup.append ihn (List.nodup_singleton path) ?_
        intro q hq1 hq2
        rw [List.mem_singleton] at hq2
        obtain ⟨m, hm, hqe⟩ := ihm q hq1
        rw [hq2] at hqe
        have hlenq := congrArg List.length hqe
        simp only [List.length_append] at hlenq
        omega
      · intro q hq
        rw [List.mem_append] at hq
        rcases hq with hq | hq
        · exact hmem q hq
        · rw [List.mem_singleton] at hq
          subst hq
          exact ⟨0, Nat.zero_le _, by simp⟩

end StackTrieModel
namespace StackTrieModel

/-- The writes of one `insert` below a spine: inserting a key right of the
spine key `r` emits pairwise-distinct write paths, each the position of a
node of the old spine (`path` plus a prefix of `r`) and each diverging
strictly left of the new key. -/
theorem insert_spine_wp (H : List Nat → List Nat) (o : StackTrieOptions)
    (first last : Option (List Nat)) :
    ∀ {st : StNode} {r : List Nat}, Spine st r →
    ∀ (key value path : List Nat), nibDiv r key → (∀ x ∈ key, x < 16) →
      (writePaths (insert H o first last st key value path).1).Nodup ∧
      ∀ q ∈ writePaths (insert H o first last st key value path).1,
        (∃ m, m ≤ r.length ∧ q = path ++ r.take m) ∧
        nibDiv (q.drop path.length) key := by
  intro st r hsp
  induction hsp with
  | leaf key0 val0 hval0 =>
    intro key value path hdiv hvalid
    obtain ⟨j, hj1, hj2, hjt, hjlt⟩ := hdiv
    have hgd : getDiffIndex key0 key = .ok j :=
      getDiffIndex_diverge key0 key j hj1 hj2 hjt (by omega)
    have horig : key0.getD j 0 < 16 := hval0 _ (getD_mem hj1)
    have hnew : key.getD j 0 < 16 := hvalid _ (getD_mem hj2)
    have hdropval : ∀ x ∈ List.drop (j + 1) key0, x < 16 :=
      fun x hx => hval0 x (List.mem_of_mem_drop hx)
    obtain ⟨em0, n0, hh⟩ := hashNode_ok_of_HashOK H o first last
      (show HashOK (newLeaf (List.drop (j + 1) key0) val0) from HashOK.leaf _ _ _)
      (path ++ List.take (j + 1) key0)
    obtain ⟨wnodup, wmem⟩ := hashNode_spine_wp H o first last
      (show Spine (newLeaf (List.drop (j + 1) key0) val0) (List.drop (j + 1) key0)
        from Spine.leaf _ _ hdropval)
      (path ++ List.take (j + 1) key0)
    rw [hh] at wnodup wmem
    dsimp only at wnodup wmem
    have hprops : ∀ q ∈ writePaths em0,
        (∃ m, m ≤ key0.length ∧ q = path ++ key0.take m) ∧
        nibDiv (q.drop path.length) key := by
      intro q hq
      obtain ⟨m, hm, hqe⟩ := wmem q hq
      have hmb : j + 1 + m ≤ key0.length := by
        rw [List.length_drop] at hm
        omega
      have hqe2 : q = path ++ key0.take (j + 1 + m) := by
        rw [hqe, List.append_assoc, ← List.take_add]
      refine ⟨⟨j + 1 + m, hmb, hqe2⟩, ?_⟩
      rw [hqe2, List.drop_left]
      exact nibDiv_take_left hj1 hj2 hjt hjlt (by omega)
    by_cases hj0 : j = 0
    · subst hj0
      have hins : insert H o first last (.mk .leafNode key0 val0 nil16)
          key value path =
          (em0, .ok (.mk .branchNode [] []
            (((nil16.set 0 none).set (key0.getD 0 0) (some n0)).set (key.getD 0 0)
              (some (newLeaf (key.drop 1) value))))) := by
        rw [insert.eq_def]
        dsimp only
        rw [hgd]
        dsimp only
        rw [if_neg (show ¬key0.length ≤ 0 by omega)]
        rw [if_neg (show ¬(15 < key0.getD 0 0 ∨ 15 < key.getD 0 0) by omega)]
        rw [hh]
        dsimp only
        rw [if_pos rfl]
      rw [hins]
      exact ⟨wnodup, hprops⟩
    · have hins : insert H o first last (.mk .leafNode key0 val0 nil16)
          key value path =
          (em0, .ok (.mk .extNode (key0.take j) []
            (nil16.set 0 (some (.mk .branchNode [] []
              ((nil16.set (key0.getD j 0) (some n0)).set (key.getD j 0)
                (some (newLeaf (key.drop (j + 1)) value)))))))) := by
        rw [insert.eq_def]
        dsimp only
        rw [hgd]
        dsimp only
        rw [if_neg (show ¬key0.length ≤ j by omega)]
        rw [if_neg (show ¬(15 < key0.getD j 0 ∨ 15 < key.getD j 0) by omega)]
        rw [hh]
        dsimp only
        rw [if_neg hj0]
      rw [hins]
      exact ⟨wnodup, hprops⟩
  | branch bval cs idx r' child hidx hlen hchild helder hright hspinech ih =>
    intro key value path hdiv hvalid
    obtain ⟨j, hj1, hj2, hjt, hjlt⟩ := hdiv
    cases key with
    | nil => simp at hj2
    | cons k0 krest =>
      by_cases hj0 : j = 0
      · subst hj0
        have hk0idx : idx < k0 := by simpa [List.getD] using hjlt
        have hk015 : k0 < 16 := hvalid k0 (by simp)
        obtain ⟨emh, ch', hh⟩ := hashNode_ok_of_HashOK H o first last
          hspinech.hashOK (path ++ [idx])
        obtain ⟨wnodup, wmem⟩ := hashNode_spine_wp H o first last hspinech
          (path ++ [idx])
        rw [hh] at wnodup wmem
        dsimp only at wnodup wmem
        have hscan : scanElder cs (k0 - 1) = some (idx, child) :=
          scanElder_finds (k0 - 1) (by omega) hchild
            (fun k hk1 hk2 => hright k hk1)
        have helderEq : elderHash H o first last cs k0 path =
            (emh, .ok (cs.set idx (some ch'))) := by
          rw [elderHash]
          rw [if_neg (show ¬k0 = 0 by omega)]
          rw [hscan]
          dsimp only
          rw [if_neg hspinech.typ_ne_hashed]
          rw [hh]
        have hgetk0 : cs.getD k0 none = none := hright k0 hk0idx
        have hins : insert H o first last (.mk .branchNode [] bval cs)
            (k0 :: krest) value path =
            (emh, .ok (.mk .branchNode [] bval
              ((cs.set idx (some ch')).set k0 (some (newLeaf krest value))))) := by
          rw [insert.eq_def]
          dsimp only
          rw [dif_neg (show ¬15 < k0 by omega)]
          rw [helderEq]
          dsimp only
          split
          · rfl
          · rename_i child'' heq
            rw [hgetk0] at heq
            cases heq
        rw [hins]
        refine ⟨wnodup, ?_⟩
        intro q hq
        obtain ⟨m, hm, hqe⟩ := wmem q hq
        have hqe2 : q = path ++ (idx :: r').take (m + 1) := by
          rw [hqe]
          simp
        refine ⟨⟨m + 1, by simp only [List.length_cons]; omega, hqe2⟩, ?_⟩
        rw [hqe2, List.drop_left]
        exact nibDiv_take_left (j := 0) (by simp) (by simp) rfl hjlt (by omega)
      · cases j with
        | zero => exact absurd rfl hj0
        | succ mj =>
          simp only [List.take_succ_cons] at hjt
          injection hjt with hk0 htl
          subst hk0
          have hdiv' : nibDiv r' krest :=
            ⟨mj, by simpa using hj1, by simpa using hj2, htl,
              by simpa [List.getD] using hjlt⟩
          have hvalid' : ∀ x ∈ krest, x < 16 :=
            fun x hx => hvalid x (List.mem_cons_of_mem _ hx)
          obtain ⟨em2, child', hins2, hsp2⟩ := insert_spine H o first last
            hspinech krest value (path ++ [idx]) hdiv' hvalid'
          obtain ⟨wnodup, wmem⟩ := ih krest value (path ++ [idx]) hdiv' hvalid'
          rw [hins2] at wnodup wmem
          dsimp only at wnodup wmem
          have helderEq : elderHash H o first last cs idx path = ([], .ok cs) := by
            rw [elderHash]
            by_cases hi0 : idx = 0
            · rw [if_pos hi0]
            · rw [if_neg hi0]
              rcases scanElder_elders (idx - 1) (fun k hk => helder k (by omega))
                with hrs | ⟨i, c, hrs, hctyp⟩
              · rw [hrs]
              · rw [hrs]
                dsimp only
                rw [if_pos hctyp]
          have hins : insert H o first last (.mk .branchNode [] bval cs)
              (idx :: krest) value path =
              ([] ++ em2, .ok (.mk .branchNode [] bval
                (cs.set idx (some child')))) := by
            rw [insert.eq_def]
            dsimp only
            rw [dif_neg (show ¬15 < idx by omega)]
            rw [helderEq]
            dsimp only
            split
            · rename_i heq
              rw [hchild] at heq
              cases heq
            · rename_i child'' heq
              rw [hchild] at heq
              injection heq with hcc
              subst hcc
              rw [hins2]
          rw [hins]
          refine ⟨wnodup, ?_⟩
          intro q hq
          obtain ⟨⟨m, hm, hqe⟩, hnd⟩ := wmem q hq
          have hqd1 : q.drop (path ++ [idx]).length = r'.take m := by
            rw [hqe, List.drop_left]
          have hqe2 : q = path ++ (idx :: r').take (m + 1) := by
            rw [hqe]
            simp
          refine ⟨⟨m + 1, by simp only [List.length_cons]; omega, hqe2⟩, ?_⟩
          rw [hqe2, List.drop_left, List.take_succ_cons]
          exact nibDiv_cons idx (hqd1 ▸ hnd)
  | ext ekey eval child r'' hkey hval hspinech ih =>
    intro key value path hdiv hvalid
    obtain ⟨j, hj1, hj2, hjt, hjlt⟩ := hdiv
    have hcs0 : (nil16.set 0 (some child)).getD 0 none = some child := rfl
    by_cases hjlen : j < ekey.length
    · have horig : ekey.getD j 0 < 16 := hval _ (getD_mem hjlen)
      have hnew : key.getD j 0 < 16 := hvalid _ (getD_mem hj2)
      have htake : ekey.take j = key.take j := by
        rw [← hjt]
        exact (take_append_left (le_of_lt hjlen)).symm
      have hgetr : (ekey ++ r'').getD j 0 = ekey.getD j 0 := getD_append_left hjlen
      have hlt' : ekey.getD j 0 < key.getD j 0 := by
        rw [← hgetr]
        exact hjlt
      have hgd : getDiffIndex ekey key = .ok j :=
        getDiffIndex_diverge ekey key j hjlen hj2 htake (by omega)
      obtain ⟨emt, n0, htail, htyp, wnodup, wmem⟩ :
          ∃ emt n0,
            extTailHash H o first last (nil16.set 0 (some child)) ekey j path =
              (emt, .ok n0) ∧ n0.typ = .hashedNode ∧
            (writePaths emt).Nodup ∧
            ∀ q ∈ writePaths emt,
              (∃ m, m ≤ (ekey ++ r'').length ∧ q = path ++ (ekey ++ r'').take m) ∧
              nibDiv (q.drop path.length) key := by
        by_cases hsplit : j < ekey.length - 1
        · have hkey' : List.drop (j + 1) ekey ≠ [] := by
            intro habs
            have hlh := congrArg List.length habs
            rw [List.length_drop] at hlh
            simp only [List.length_nil] at hlh
            omega
          have hvald : ∀ x ∈ List.drop (j + 1) ekey, x < 16 :=
            fun x hx => hval x (List.mem_of_mem_drop hx)
          obtain ⟨emt, n0, hc⟩ := hashNode_ok_of_HashOK H o first last
            (show HashOK (newExt (ekey.drop (j + 1))
                ((nil16.set 0 (some child)).getD 0 none)) from
              HashOK.ext _ _ child (List.replicate 15 none) hspinech.hashOK)
            (path ++ ekey.take (j + 1))
          obtain ⟨wnodup, wmem⟩ := hashNode_spine_wp H o first last
            (show Spine (newExt (ekey.drop (j + 1))
                ((nil16.set 0 (some child)).getD 0 none))
                (List.drop (j + 1) ekey ++ r'') from
              Spine.ext _ _ child r'' hkey' hvald hspinech)
            (path ++ ekey.take (j + 1))
          rw [hc] at wnodup wmem
          dsimp only at wnodup wmem
          refine ⟨emt, n0, ?_, hashNode_ok_typ hc, wnodup, ?_⟩
          · rw [extTailHash]
            rw [if_pos hsplit]
            exact hc
          · intro q hq
            obtain ⟨m, hm, hqe⟩ := wmem q hq
            have hj1e : j + 1 ≤ ekey.length := by omega
            have htk : (ekey ++ r'').take (j + 1 + m) =
                ekey.take (j + 1) ++ (List.drop (j + 1) ekey ++ r'').take m := by
              rw [List.take_add, take_append_left hj1e,
                List.drop_append_of_le_length hj1e]
            have hqe2 : q = path ++ (ekey ++ r'').take (j + 1 + m) := by
              rw [hqe, List.append_assoc, htk]
            refine ⟨⟨j + 1 + m, ?_, hqe2⟩, ?_⟩
            · simp only [List.length_append, List.length_drop] at hm ⊢
              omega
            · rw [hqe2, List.drop_left]
              exact nibDiv_take_left hj1 hj2 hjt hjlt (by omega)
        · obtain ⟨emt, n0, hc⟩ := hashNode_ok_of_HashOK H o first last
            hspinech.hashOK (path ++ ekey)
          obtain ⟨wnodup, wmem⟩ := hashNode_spine_wp H o first last hspinech
            (path ++ ekey)
          rw [hc] at wnodup wmem
          dsimp only at wnodup wmem
          refine ⟨emt, n0, ?_, hashNode_ok_typ hc, wnodup, ?_⟩
          · rw [extTailHash]
            rw [if_neg hsplit]
            rw [hcs0]
            exact hc
          · intro q hq
            obtain ⟨m, hm, hqe⟩ := wmem q hq
            have hqe2 : q = path ++ (ekey ++ r'').take (ekey.length + m) := by
              rw [hqe, List.append_assoc, ← take_append_add]
            refine ⟨⟨ekey.length + m, ?_, hqe2⟩, ?_⟩
            · simp only [List.length_append]
              omega
            · rw [hqe2, List.drop_left]
              exact nibDiv_take_left hj1 hj2 hjt hjlt (by omega)
      by_cases hj0 : j = 0
      · subst hj0
        have hins : insert H o first last
            (.mk .extNode ekey eval (nil16.set 0 (some child))) key value path =
            (emt, .ok (.mk .branchNode [] eval
              ((((nil16.set 0 (some child)).set 0 none).set (ekey.getD 0 0)
                (some n0)).set (key.getD 0 0)
                (some (newLeaf (key.drop 1) value))))) := by
          rw [insert.eq_def]
          dsimp only
          rw [hgd]
          dsimp only
          rw [dif_neg (show ¬(0 : Nat) = ekey.length by omega)]
          rw [htail]
          dsimp only
          rw [if_neg (show ¬(15 < ekey.getD 0 0 ∨ 15 < key.getD 0 0) by omega)]
          rw [if_pos rfl]
        rw [hins]
        exact ⟨wnodup, wmem⟩
      · have hins : insert H o first last
            (.mk .extNode ekey eval (nil16.set 0 (some child))) key value path =
            (emt, .ok (.mk .extNode (ekey.take j) eval
              ((nil16.set 0 (some child)).set 0 (some (.mk .branchNode [] []
                ((nil16.set (ekey.getD j 0) (some n0)).set (key.getD j 0)
                  (some (newLeaf (key.drop (j + 1)) value)))))))) := by
          rw [insert.eq_def]
          dsimp only
          rw [hgd]
          dsimp only
          rw [dif_neg (show ¬j = ekey.length by omega)]
          rw [htail]
          dsimp only
          rw [if_neg (show ¬(15 < ekey.getD j 0 ∨ 15 < key.getD j 0) by omega)]
          rw [if_neg hj0]
        rw [hins]
        exact ⟨wnodup, wmem⟩
    · have hjlen' : ekey.length ≤ j := by omega
      have hkeq : key.take ekey.length = ekey := by
        have h1 := congrArg (List.take ekey.length) hjt
        rw [List.take_take, List.take_take] at h1
        rw [Nat.min_eq_left hjlen'] at h1
        rw [take_append_left (le_refl _)] at h1
        rw [List.take_length] at h1
        exact h1.symm
      have hksplit : key = ekey ++ key.drop ekey.length := by
        conv_lhs => rw [← List.take_append_drop ekey.length key]
        rw [hkeq]
      have hgd : getDiffIndex ekey key = .ok ekey.length := by
        rw [hksplit]
        exact getDiffIndex_append _ _
      have hlen1 : (ekey ++ r'').length = ekey.length + r''.length := by simp
      have hdiv' : nibDiv r'' (key.drop ekey.length) := by
        refine ⟨j - ekey.length, by rw [hlen1] at hj1; omega,
          by rw [List.length_drop]; omega, ?_, ?_⟩
        · have h3 := congrArg (List.drop ekey.length) hjt
          rw [List.drop_take, List.drop_take] at h3
          rw [List.drop_left] at h3
          exact h3
        · have h4 : (ekey ++ r'').getD (ekey.length + (j - ekey.length)) 0 =
              r''.getD (j - ekey.length) 0 := getD_append_right
          have h5 : (ekey ++ key.drop ekey.length).getD
              (ekey.length + (j - ekey.length)) 0 =
              (key.drop ekey.length).getD (j - ekey.length) 0 := getD_append_right
          rw [← hksplit] at h5
          rw [show ekey.length + (j - ekey.length) = j by omega] at h4 h5
          rw [← h4, ← h5]
          exact hjlt
      have hvalid' : ∀ x ∈ key.drop ekey.length, x < 16 :=
        fun x hx => hvalid x (List.mem_of_mem_drop hx)
      obtain ⟨em2, child', hins2, hsp2⟩ := insert_spine H o first last hspinech
        (key.drop ekey.length) value (path ++ key.take ekey.length) hdiv' hvalid'
      obtain ⟨wnodup, wmem⟩ := ih (key.drop ekey.length) value
        (path ++ key.take ekey.length) hdiv' hvalid'
      rw [hins2] at wnodup wmem
      dsimp only at wnodup wmem
      have hins : insert H o first last
          (.mk .extNode ekey eval (nil16.set 0 (some child))) key value path =
          (em2, .ok (.mk .extNode ekey eval
            ((nil16.set 0 (some child)).set 0 (some child')))) := by
        rw [insert.eq_def]
        dsimp only
        rw [hgd]
        dsimp only
        rw [dif_pos rfl]
        split
        · rename_i heq
          rw [hcs0] at heq
          cases heq
        · rename_i child'' heq
          rw [hcs0] at heq
          injection heq with hcc
          subst hcc
          rw [hins2]
      rw [hins]
      refine ⟨wnodup, ?_⟩
      intro q hq
      obtain ⟨⟨m, hm, hqe⟩, hnd⟩ := wmem q hq
      have hqd : q.drop (path ++ List.take ekey.length key).length =
          List.take m r'' := by
        rw [hqe, List.drop_left]
      have hnd2 : nibDiv (r''.take m) (key.drop ekey.length) := hqd ▸ hnd
      have hqe2 : q = path ++ (ekey ++ r'').take (ekey.length + m) := by
        rw [hqe, hkeq, List.append_assoc, ← take_append_add]
      refine ⟨⟨ekey.length + m, ?_, hqe2⟩, ?_⟩
      · simp only [List.length_append]
        omega
      · rw [hqe2, List.drop_left, take_append_add]
        rw [hksplit]
        exact nibDiv_append_left ekey hnd2

end StackTrieModel
namespace StackTrieModel

/-- A path strictly left of the head of a divergence chain is strictly left
of the chain's last element too. -/
theorem nibDiv_chain_last {q : List Nat} :
    ∀ {l : List (List Nat)} {a : List Nat}, nibDiv q a →
      List.Chain' nibDiv (a :: l) → nibDiv q (l.getLastD a) := by
  intro l
  induction l with
  | nil =>
    intro a h _
    simpa using h
  | cons b l' ih =>
    intro a h hch
    rw [List.chain'_cons] at hch
    rw [List.getLastD_cons]
    exact ih (nibDiv_trans h hch.1) hch.2

/-- `TryUpdate` on a spine: it succeeds, re-establishes the spine at the new
key, and its writes are pairwise distinct positions of the old spine,
each strictly left of the new key. -/
theorem TryUpdate_spine_wp (H : List Nat → List Nat) {t : STrie}
    {key value r : List Nat}
    (hsp : Spine t.root r) (hdiv : nibDiv r (keyNibbles key))
    (hb : ∀ x ∈ key, x < 256) (hv : value ≠ []) :
    ∃ em t', TryUpdate H t key value = (em, .ok (t', none)) ∧
      Spine t'.root (keyNibbles key) ∧
      (writePaths em).Nodup ∧
      ∀ q ∈ writePaths em,
        (∃ m, m ≤ r.length ∧ q = r.take m) ∧ nibDiv q (keyNibbles key) := by
  have hvlen : ¬(value.length = 0) := fun h => hv (List.length_eq_zero.mp h)
  rcases hf : t.first with - | f
  · obtain ⟨em, root', hins, hsp'⟩ := insert_spine H t.options
      (some (keyNibbles key)) (some (keyNibbles key)) hsp
      (keyNibbles key) value [] hdiv (keyNibbles_valid hb)
    obtain ⟨wnodup, wmem⟩ := insert_spine_wp H t.options
      (some (keyNibbles key)) (some (keyNibbles key)) hsp
      (keyNibbles key) value [] hdiv (keyNibbles_valid hb)
    rw [hins] at wnodup wmem
    dsimp only at wnodup wmem
    refine ⟨em, ⟨t.options, root', some (keyNibbles key), some (keyNibbles key)⟩,
      ?_, hsp', wnodup, ?_⟩
    · rw [TryUpdate]
      rw [if_neg hvlen]
      dsimp only
      rw [hf]
      dsimp only
      rw [show (keybytesToHex key).dropLast = keyNibbles key from rfl]
      rw [hins]
    · intro q hq
      obtain ⟨⟨m, hm, hqe⟩, hnd⟩ := wmem q hq
      rw [List.nil_append] at hqe
      exact ⟨⟨m, hm, hqe⟩, hnd⟩
  · obtain ⟨em, root', hins, hsp'⟩ := insert_spine H t.options
      (some f) (some (keyNibbles key)) hsp
      (keyNibbles key) value [] hdiv (keyNibbles_valid hb)
    obtain ⟨wnodup, wmem⟩ := insert_spine_wp H t.options
      (some f) (some (keyNibbles key)) hsp
      (keyNibbles key) value [] hdiv (keyNibbles_valid hb)
    rw [hins] at wnodup wmem
    dsimp only at wnodup wmem
    refine ⟨em, ⟨t.options, root', some f, some (keyNibbles key)⟩,
      ?_, hsp', wnodup, ?_⟩
    · rw [TryUpdate]
      rw [if_neg hvlen]
      dsimp only
      rw [hf]
      dsimp only
      rw [show (keybytesToHex key).dropLast = keyNibbles key from rfl]
      rw [hins]
    · intro q hq
      obtain ⟨⟨m, hm, hqe⟩, hnd⟩ := wmem q hq
      rw [List.nil_append] at hqe
      exact ⟨⟨m, hm, hqe⟩, hnd⟩

/-- The first `TryUpdate` of a lifetime emits nothing. -/
theorem TryUpdate_base_wp (H : List Nat → List Nat) {t : STrie}
    {key value : List Nat} (hroot : t.root = emptyStNode)
    (hb : ∀ x ∈ key, x < 256) (hv : value ≠ []) :
    ∃ t', TryUpdate H t key value = ([], .ok (t', none)) ∧
      Spine t'.root (keyNibbles key) := by
  have hvlen : ¬(value.length = 0) := fun h => hv (List.length_eq_zero.mp h)
  have hins : ∀ first last, insert H t.options first last t.root
      (keyNibbles key) value [] =
      ([], .ok (.mk .leafNode (keyNibbles key) value nil16)) := by
    intro first last
    rw [hroot, emptyStNode, insert]
  rcases hf : t.first with - | f
  · refine ⟨⟨t.options, .mk .leafNode (keyNibbles key) value nil16,
      some (keyNibbles key), some (keyNibbles key)⟩, ?_, ?_⟩
    · rw [TryUpdate]
      rw [if_neg hvlen]
      dsimp only
      rw [hf]
      dsimp only
      rw [show (keybytesToHex key).dropLast = keyNibbles key from rfl]
      rw [hins]
    · exact Spine.leaf _ _ (keyNibbles_valid hb)
  · refine ⟨⟨t.options, .mk .leafNode (keyNibbles key) value nil16,
      some f, some (keyNibbles key)⟩, ?_, ?_⟩
    · rw [TryUpdate]
      rw [if_neg hvlen]
      dsimp only
      rw [hf]
      dsimp only
      rw [show (keybytesToHex key).dropLast = keyNibbles key from rfl]
      rw [hins]
    · exact Spine.leaf _ _ (keyNibbles_valid hb)

/-- A run of updates over a spine: it succeeds, ends in the spine of the
last key, its writes are pairwise distinct, all strictly left of the last
key, and none of them lies strictly left of the starting spine key. -/
theorem runUpdates_spine_wp (H : List Nat → List Nat) :
    ∀ (ps : List (List Nat × List Nat)) (t : STrie) (r : List Nat),
    Spine t.root r →
    (∀ p ∈ ps, ∀ x ∈ p.1, x < 256) →
    (∀ p ∈ ps, p.2 ≠ []) →
    List.Chain' nibDiv (r :: ps.map (fun p => keyNibbles p.1)) →
    ∃ em t', runUpdates H t ps = (em, .ok t') ∧
      Spine t'.root ((ps.map (fun p => keyNibbles p.1)).getLastD r) ∧
      (writePaths em).Nodup ∧
      (∀ q ∈ writePaths em,
        nibDiv q ((ps.map (fun p => keyNibbles p.1)).getLastD r)) ∧
      (∀ p, nibDiv p r → p ∉ writePaths em) := by
  intro ps
  induction ps with
  | nil =>
    intro t r hsp h1 h2 h3
    exact ⟨[], t, by rw [runUpdates], hsp, List.nodup_nil,
      fun q hq => absurd hq (List.not_mem_nil q),
      fun p hp hmem => absurd hmem (List.not_mem_nil p)⟩
  | cons p ps' ih =>
    intro t r hsp hb hv hchain
    rw [List.map_cons, List.chain'_cons] at hchain
    obtain ⟨h1, h2⟩ := hchain
    obtain ⟨em1, t1, htu, hsp1, hnod1, hw1⟩ := TryUpdate_spine_wp H hsp h1
      (hb p (List.mem_cons_self _ _)) (hv p (List.mem_cons_self _ _))
    obtain ⟨em2, t2, hrun, hsp2, hnod2, hw2, hnot2⟩ := ih t1 (keyNibbles p.1)
      hsp1 (fun q hq => hb q (List.mem_cons_of_mem _ hq))
      (fun q hq => hv q (List.mem_cons_of_mem _ hq)) h2
    refine ⟨em1 ++ em2, t2, ?_, ?_, ?_, ?_, ?_⟩
    · rw [runUpdates, htu]
      dsimp only
      rw [hrun]
    · rw [List.map_cons, List.getLastD_cons]
      exact hsp2
    · rw [writePaths_append]
      refine List.Nodup.append hnod1 hnod2 ?_
      intro q hq1 hq2
      exact hnot2 q (hw1 q hq1).2 hq2
    · rw [writePaths_append, List.map_cons, List.getLastD_cons]
      intro q hq
      rw [List.mem_append] at hq
      rcases hq with hq | hq
      · exact nibDiv_chain_last (hw1 q hq).2 h2
      · exact hw2 q hq
    · intro pq hpq
      rw [writePaths_append, List.mem_append]
      rintro (hmem | hmem)
      · obtain ⟨⟨m, hm, hqe⟩, -⟩ := hw1 pq hmem
        exact nibDiv_ne_take hpq m hqe
      · exact hnot2 pq (nibDiv_trans hpq h1) hmem

end StackTrieModel
namespace StackTrieModel

/-- C8: within one trie lifetime — from construction through a run of
`Update` calls with strictly increasing keys to the final `Hash`/`Commit` —
each `(path, hash)` pair is passed to the writer at most once: the list of
`(path, hash)` pairs of all writer calls has no duplicate. -/
theorem claim_C8_write_once (H : List Nat → List Nat) (o : StackTrieOptions)
    (ps : List (List Nat × List Nat))
    (hb : ∀ p ∈ ps, ∀ x ∈ p.1, x < 256)
    (hv : ∀ p ∈ ps, p.2 ≠ [])
    (hinc : List.Chain' nibDiv (ps.map Prod.fst)) :
    ∀ (em1 : List Emission) (t' : STrie),
      runUpdates H (newStackTrie o) ps = (em1, .ok t') →
      ∀ (em2 : List Emission) (res : Except StErr (STrie × List Nat)),
        HashT H t' = (em2, res) →
        (writeKeys (em1 ++ em2)).Nodup := by
  intro em1 t' h1 em2 res h2
  refine writeKeys_nodup_of_writePaths ?_
  rw [writePaths_append]
  have hem2 : em2 = (hashNode H t'.options t'.first t'.last t'.root []).1 := by
    rw [HashT] at h2
    split at h2
    · rename_i emX e heq
      injection h2 with h2a h2b
      rw [heq, ← h2a]
    · rename_i emX rootX heq
      injection h2 with h2a h2b
      rw [heq, ← h2a]
  cases ps with
  | nil =>
    rw [runUpdates] at h1
    injection h1 with h1a h1b
    injection h1b with h1c
    subst h1a
    subst h1c
    have hhn : hashNode H (newStackTrie o).options (newStackTrie o).first
        (newStackTrie o).last (newStackTrie o).root [] =
        ([], .ok (.mk .hashedNode [] emptyRoot nil16)) := by
      rw [show (newStackTrie o).root = emptyStNode from rfl, emptyStNode]
      rw [hashNode]
    rw [hem2, hhn]
    simp [writePaths]
  | cons p0 rest =>
    have hchain := chain_nibDiv_keyNibbles (p0 :: rest) hb hinc
    obtain ⟨t1, htu, hsp1⟩ := TryUpdate_base_wp H
      (show (newStackTrie o).root = emptyStNode from rfl)
      (hb p0 (List.mem_cons_self _ _)) (hv p0 (List.mem_cons_self _ _))
    rw [List.map_cons] at hchain
    obtain ⟨emB, t2, hrun, hsp2, hnodB, hwB, hnotB⟩ := runUpdates_spine_wp H
      rest t1 (keyNibbles p0.1) hsp1
      (fun q hq => hb q (List.mem_cons_of_mem _ hq))
      (fun q hq => hv q (List.mem_cons_of_mem _ hq)) hchain
    have hrunEq : runUpdates H (newStackTrie o) (p0 :: rest) =
        ([] ++ emB, .ok t2) := by
      rw [runUpdates, htu]
      dsimp only
      rw [hrun]
    rw [hrunEq] at h1
    injection h1 with h1a h1b
    injection h1b with h1c
    subst h1c
    rw [← h1a, List.nil_append]
    obtain ⟨hnodF, hmemF⟩ := hashNode_spine_wp H t2.options t2.first t2.last
      hsp2 []
    rw [← hem2] at hnodF hmemF
    refine List.Nodup.append hnodB hnodF ?_
    intro q hq1 hq2
    obtain ⟨m, hm, hqe⟩ := hmemF q hq2
    rw [List.nil_append] at hqe
    exact nibDiv_ne_take (hwB q hq1) m hqe

end StackTrieModel
namespace StackTrieModel

/-- Options for the C8 witness run: writer on, no cleaner, no boundary
skipping, no gauge. -/
def w8Opts : StackTrieOptions := ⟨true, false, false, false, false⟩

/-- Witness for C8: the one-key run `0x10 → [1]` followed by `Hash` writes
exactly one `(path, hash)` pair (the root), with no duplicate. -/
theorem claim_C8_witness :
    (writeKeys (([] : List Emission) ++
      [Emission.write [] (List.replicate 32 1) [196, 130, 32, 16, 1]])).Nodup := by
  have hb : ∀ p ∈ [(([0x10] : List Nat), ([1] : List Nat))],
      ∀ x ∈ p.1, x < 256 := by decide
  have hv : ∀ p ∈ [(([0x10] : List Nat), ([1] : List Nat))], p.2 ≠ [] := by decide
  have hinc : List.Chain' nibDiv
      ([(([0x10] : List Nat), ([1] : List Nat))].map Prod.fst) := List.Chain.nil
  have e1 : TryUpdate wH (newStackTrie w8Opts) [0x10] [1] =
      ([], .ok (⟨w8Opts, .mk .leafNode [1, 0] [1] nil16,
        some [1, 0], some [1, 0]⟩, none)) := by
    rw [TryUpdate]
    simp only [List.length_cons]
    rw [show (newStackTrie w8Opts).root = emptyStNode from rfl, emptyStNode, insert]
    rfl
  have h1 : runUpdates wH (newStackTrie w8Opts) [([0x10], [1])] =
      ([], .ok (⟨w8Opts, .mk .leafNode [1, 0] [1] nil16,
        some [1, 0], some [1, 0]⟩ : STrie)) := by
    rw [runUpdates, e1]
    dsimp only
    rw [runUpdates]
    rfl
  have eLf : hashNode wH w8Opts (some [1, 0]) (some [1, 0])
      (.mk .leafNode [1, 0] [1] nil16) [] =
      ([Emission.write [] (List.replicate 32 1) [196, 130, 32, 16, 1]],
       .ok (.mk .hashedNode [] (List.replicate 32 1) nil16)) := by
    rw [hashNode]
    rfl
  have h2 : HashT wH (⟨w8Opts, .mk .leafNode [1, 0] [1] nil16,
      some [1, 0], some [1, 0]⟩ : STrie) =
      ([Emission.write [] (List.replicate 32 1) [196, 130, 32, 16, 1]],
       .ok (⟨w8Opts, .mk .hashedNode [] (List.replicate 32 1) nil16,
         some [1, 0], some [1, 0]⟩, List.replicate 32 1)) := by
    rw [HashT]
    dsimp only
    rw [eLf]
    rfl
  exact claim_C8_write_once wH w8Opts [([0x10], [1])] hb hv hinc
    [] _ h1 _ _ h2
end StackTrieModel
